import Mathlib

/-!
# SparseMatrixLib: the CSR sparse matrix

A shallow embedding of `SparseMatrixCSR` (src/SparseMatrixCSR.h, src/SparseMatrixCSR.cpp) and of
the dense reference `DenseMatrix::multiply` (src/benchmark.cpp).

Modelling conventions.
* `std::vector<T>` is `List T`.  Every subscript is bounds checked: an index outside the vector
  is undefined behaviour in C++ and is the error `Error.out_of_range` here, so a result
  `Except.ok _` says that no index was out of range.
* `throw std::invalid_argument(..)` is the error `Error.invalid_argument`.
* The `int` fields `rows`, `cols`, `nnz`, the offsets and the column indices are natural
  numbers: the constructor is given non-negative dimensions (the specification asks for
  positive ones) and sizes are taken below `2^31`, so that no `int` operation wraps.  The one
  `int` that the code decrements, `col_counters`, is an integer.
* `double` is an arbitrary type `α` with a zero and decidable equality; the claims about sums
  take `α` to be a commutative ring (exact arithmetic).
* A `for` loop whose bounds are not assigned in its body is a monadic left fold over the list
  of its index values.
-/

/-- The two ways an operation can go wrong. -/
inductive Error where
  /-- The exception `std::invalid_argument` thrown by the code (the spec's DimensionMismatch). -/
  | invalid_argument : Error
  /-- A subscript outside the bounds of a vector. -/
  | out_of_range : Error
  deriving DecidableEq

/-- The read `xs[i]`. -/
def readAt {β : Type} (xs : List β) (i : Nat) : Except Error β :=
  match xs[i]? with
  | some x => Except.ok x
  | none => Except.error Error.out_of_range

/-- The assignment `xs[i] = x`. -/
def writeAt {β : Type} (xs : List β) (i : Nat) (x : β) : Except Error (List β) :=
  if i < xs.length then Except.ok (xs.set i x) else Except.error Error.out_of_range

/-- The assignment `xs[i] = x` for a signed index `i`. -/
def writeAtInt {β : Type} (xs : List β) (i : Int) (x : β) : Except Error (List β) :=
  if 0 ≤ i then writeAt xs i.toNat x else Except.error Error.out_of_range

/-- The private fields of `class SparseMatrixCSR` (SparseMatrixCSR.h, lines 10-16). -/
structure SparseMatrixCSR (α : Type) where
  rows : Nat
  cols : Nat
  nnz : Nat
  row_offsets : List Nat
  column_indices : List Nat
  nnz_values : List α
  deriving DecidableEq

namespace SparseMatrixCSR

variable {α : Type}

/-- The constructor `SparseMatrixCSR(int r, int c)`:
`rows(r), cols(c), nnz(0), row_offsets(r + 1, 0)`, the other two vectors empty. -/
def new (r c : Nat) : SparseMatrixCSR α :=
  { rows := r, cols := c, nnz := 0, row_offsets := List.replicate (r + 1) 0,
    column_indices := [], nnz_values := [] }

/-- Body of the loop of lines 10-14 of `buildFromDense`: `dense[r].size() != cols` throws. -/
def checkRow (m : SparseMatrixCSR α) (dense : List (List α)) (_ : Unit) (r : Nat) :
    Except Error Unit := do
  let row ← readAt dense r
  if row.length ≠ m.cols then Except.error Error.invalid_argument else Except.ok ()

/-- Lines 6-14 of `buildFromDense`: the row count check and the loop of column size checks.
Nothing is assigned here. -/
def checkDense (m : SparseMatrixCSR α) (dense : List (List α)) : Except Error Unit :=
  if dense.length ≠ m.rows then Except.error Error.invalid_argument
  else (List.range m.rows).foldlM (checkRow m dense) ()

/-- Body of the inner loop of `buildFromDense` (lines 25-30). -/
def fillCell [Zero α] [DecidableEq α] (dense : List (List α)) (r : Nat)
    (m : SparseMatrixCSR α) (c : Nat) : Except Error (SparseMatrixCSR α) := do
  let row ← readAt dense r
  let value ← readAt row c
  if value ≠ 0 then
    Except.ok { m with column_indices := m.column_indices ++ [c],
                       nnz_values := m.nnz_values ++ [value],
                       nnz := m.nnz + 1 }
  else Except.ok m

/-- Body of the outer loop of `buildFromDense` (lines 24-32). -/
def fillRow [Zero α] [DecidableEq α] (dense : List (List α))
    (m : SparseMatrixCSR α) (r : Nat) : Except Error (SparseMatrixCSR α) := do
  let m1 ← (List.range m.cols).foldlM (fillCell dense r) m
  let offs ← writeAt m1.row_offsets (r + 1) m1.nnz
  Except.ok { m1 with row_offsets := offs }

/-- Lines 16-33 of `buildFromDense`: reset the storage and scan the dense matrix. -/
def fillFromDense [Zero α] [DecidableEq α] (m : SparseMatrixCSR α) (dense : List (List α)) :
    Except Error (SparseMatrixCSR α) := do
  let m1 : SparseMatrixCSR α := { m with nnz := 0, column_indices := [], nnz_values := [] }
  let offs ← writeAt m1.row_offsets 0 0
  let m2 : SparseMatrixCSR α := { m1 with row_offsets := offs }
  (List.range m2.rows).foldlM (fillRow dense) m2

/-- The method `buildFromDense` (SparseMatrixCSR.cpp, lines 5-34): the outcome of the call
together with the state of the receiver after it.  The two `throw`s come before the first
assignment, so the receiver is as it was when they fire; after an out of range subscript
nothing is specified and the model keeps the receiver. -/
def buildFromDense [Zero α] [DecidableEq α] (m : SparseMatrixCSR α) (dense : List (List α)) :
    Except Error Unit × SparseMatrixCSR α :=
  match checkDense m dense with
  | Except.error e => (Except.error e, m)
  | Except.ok () =>
    match fillFromDense m dense with
    | Except.ok m1 => (Except.ok (), m1)
    | Except.error e => (Except.error e, m)

/-- Body of the inner loop of `multiply` (lines 44-46). -/
def multiplyStep [Add α] [Mul α] (m : SparseMatrixCSR α) (dense_vector : List α)
    (sum : α) (idx : Nat) : Except Error α := do
  let col ← readAt m.column_indices idx
  let value ← readAt m.nnz_values idx
  let x ← readAt dense_vector col
  Except.ok (sum + value * x)

/-- Body of the outer loop of `multiply` (lines 42-48). -/
def multiplyRow [Zero α] [Add α] [Mul α] (m : SparseMatrixCSR α) (dense_vector : List α)
    (result : List α) (row : Nat) : Except Error (List α) := do
  let lo ← readAt m.row_offsets row
  let hi ← readAt m.row_offsets (row + 1)
  let sum ← (List.range' lo (hi - lo)).foldlM (multiplyStep m dense_vector) 0
  writeAt result row sum

/-- The method `multiply` (SparseMatrixCSR.cpp, lines 36-51). -/
def multiply [Zero α] [Add α] [Mul α] (m : SparseMatrixCSR α) (dense_vector : List α) :
    Except Error (List α) :=
  if dense_vector.length ≠ m.cols then Except.error Error.invalid_argument
  else (List.range m.rows).foldlM (multiplyRow m dense_vector) (List.replicate m.rows 0)

/-- Body of the loop of lines 56-58 of `transpose`: `col_ele_counts[col]++`. -/
def countStep (col_ele_counts : List Nat) (col : Nat) : Except Error (List Nat) := do
  let n ← readAt col_ele_counts col
  writeAt col_ele_counts col (n + 1)

/-- Body of the loop of lines 60-62 of `transpose`:
`new_row_offsets[i + 1] = new_row_offsets[i] + col_ele_counts[i]`. -/
def offsetStep (col_ele_counts : List Nat) (new_row_offsets : List Nat) (i : Nat) :
    Except Error (List Nat) := do
  let a ← readAt new_row_offsets i
  let b ← readAt col_ele_counts i
  writeAt new_row_offsets (i + 1) (a + b)

/-- Body of the inner loop of `transpose` (lines 74-87); the state is the matrix under
construction and `col_counters`. -/
def scatterStep (m : SparseMatrixCSR α) (col_ele_counts new_row_offsets : List Nat) (row : Nat)
    (st : SparseMatrixCSR α × List Int) (idx : Nat) :
    Except Error (SparseMatrixCSR α × List Int) := do
  let col ← readAt m.column_indices idx
  let value ← readAt m.nnz_values idx
  let new_row := col
  let new_col := row
  let off ← readAt new_row_offsets new_row
  let cnt ← readAt col_ele_counts new_row
  let ctr ← readAt st.2 new_row
  let new_position : Int := (off : Int) + ((cnt : Int) - ctr)
  let cis ← writeAtInt st.1.column_indices new_position new_col
  let vals ← writeAtInt st.1.nnz_values new_position value
  let ctrs ← writeAt st.2 new_row (ctr - 1)
  Except.ok ({ st.1 with column_indices := cis, nnz_values := vals }, ctrs)

/-- Body of the outer loop of `transpose` (lines 72-89). -/
def scatterRow (m : SparseMatrixCSR α) (col_ele_counts new_row_offsets : List Nat)
    (st : SparseMatrixCSR α × List Int) (row : Nat) :
    Except Error (SparseMatrixCSR α × List Int) := do
  let lo ← readAt m.row_offsets row
  let hi ← readAt m.row_offsets (row + 1)
  (List.range' lo (hi - lo)).foldlM (scatterStep m col_ele_counts new_row_offsets row) st

/-- The method `transpose` (SparseMatrixCSR.cpp, lines 53-93). -/
def transpose [Zero α] (m : SparseMatrixCSR α) : Except Error (SparseMatrixCSR α) := do
  let col_ele_counts ← m.column_indices.foldlM countStep (List.replicate m.cols 0)
  let new_row_offsets ←
    (List.range m.cols).foldlM (offsetStep col_ele_counts) (List.replicate (m.cols + 1) 0)
  let transposed : SparseMatrixCSR α :=
    { rows := m.cols, cols := m.rows, nnz := m.nnz, row_offsets := new_row_offsets,
      column_indices := List.replicate m.nnz 0, nnz_values := List.replicate m.nnz 0 }
  let col_counters : List Int := col_ele_counts.map Int.ofNat
  let st ← (List.range m.rows).foldlM (scatterRow m col_ele_counts new_row_offsets)
    (transposed, col_counters)
  Except.ok st.1

/-- The accessor `getRows`. -/
def getRows (m : SparseMatrixCSR α) : Nat := m.rows

/-- The accessor `getCols`. -/
def getCols (m : SparseMatrixCSR α) : Nat := m.cols

/-- The accessor `getNNZ`. -/
def getNNZ (m : SparseMatrixCSR α) : Nat := m.nnz

end SparseMatrixCSR

variable {α : Type}

open SparseMatrixCSR

/-! ## The dense reference -/

/-- The fields of `class DenseMatrix` (src/benchmark.cpp, lines 8-11). -/
structure DenseMatrix (α : Type) where
  data : List (List α)
  rows : Nat
  cols : Nat

namespace DenseMatrix

/-- Body of the inner loop of `DenseMatrix::multiply`:
`result[r] += data[r][c] * vec[c]`. -/
def multiplyCell [Add α] [Mul α] (d : DenseMatrix α) (vec : List α) (r : Nat)
    (result : List α) (c : Nat) : Except Error (List α) := do
  let row ← readAt d.data r
  let a ← readAt row c
  let x ← readAt vec c
  let cur ← readAt result r
  writeAt result r (cur + a * x)

/-- Body of the outer loop of `DenseMatrix::multiply`. -/
def multiplyRow [Add α] [Mul α] (d : DenseMatrix α) (vec : List α)
    (result : List α) (r : Nat) : Except Error (List α) :=
  (List.range d.cols).foldlM (multiplyCell d vec r) result

/-- The dense reference `DenseMatrix::multiply` (src/benchmark.cpp, lines 17-25). -/
def multiply [Zero α] [Add α] [Mul α] (d : DenseMatrix α) (vec : List α) :
    Except Error (List α) :=
  (List.range d.rows).foldlM (multiplyRow d vec) (List.replicate d.rows 0)

end DenseMatrix

/-! ## Notions of the specification -/

/-- The entry `D[r][c]` of a dense matrix (zero outside it). -/
def entry [Zero α] (D : List (List α)) (r c : Nat) : α := (D.getD r []).getD c 0

/-- A dense matrix has the shape `rows x cols`. -/
def IsDense (rows cols : Nat) (D : List (List α)) : Prop :=
  D.length = rows ∧ ∀ row ∈ D, row.length = cols

instance (rows cols : Nat) (D : List (List α)) : Decidable (IsDense rows cols D) := by
  unfold IsDense; infer_instance

/-- The dense transpose `Dt` of a `rows x cols` dense matrix `D`: `Dt[c][r] = D[r][c]`. -/
def denseTranspose [Zero α] (rows cols : Nat) (D : List (List α)) : List (List α) :=
  (List.range cols).map (fun c => (List.range rows).map (fun r => entry D r c))

/-- The dense `n x n` identity matrix: `1` on the diagonal, `0` elsewhere. -/
def denseIdentity [Zero α] [One α] (n : Nat) : List (List α) :=
  (List.range n).map (fun r => (List.range n).map (fun c => if r = c then 1 else 0))

/-- The dot product of dense row `r` of `D` with `x`: the sum over `c` in `[0, cols)` of
`D[r][c] * x[c]`. -/
def rowDot [CommRing α] (D : List (List α)) (x : List α) (cols r : Nat) : α :=
  ∑ c in Finset.range cols, entry D r c * x.getD c 0

/-- The elementwise sum `x + y` of two vectors. -/
def vecAdd [Add α] (x y : List α) : List α := List.zipWith (fun a b => a + b) x y

/-- The dot product of two vectors. -/
def dot [Zero α] [Add α] [Mul α] (x y : List α) : α :=
  (List.zipWith (fun a b => a * b) x y).foldl (fun s t => s + t) 0

/-- The part `xs[lo], .., xs[hi - 1]` of a vector. -/
def sliceOf {β : Type} (xs : List β) (lo hi : Nat) : List β := (xs.drop lo).take (hi - lo)

namespace SparseMatrixCSR

/-- Invariant 1 of the data model, with the length of `row_offsets`: `rows + 1` offsets, the
first is `0`, and they are non-decreasing. -/
def Inv1 (m : SparseMatrixCSR α) : Prop :=
  m.row_offsets.length = m.rows + 1 ∧ m.row_offsets[0]? = some 0 ∧
    m.row_offsets.Pairwise (fun a b => a ≤ b)

/-- Invariant 2 of the data model:
`row_offsets[rows] == nnz == column_indices.length == values.length`. -/
def Inv2 (m : SparseMatrixCSR α) : Prop :=
  m.row_offsets[m.rows]? = some m.nnz ∧ m.nnz = m.column_indices.length ∧
    m.nnz = m.nnz_values.length

/-- Invariant 3 of the data model: every stored column index is in `[0, cols)`. -/
def Inv3 (m : SparseMatrixCSR α) : Prop :=
  ∀ c ∈ m.column_indices, c < m.cols

/-- Invariant 4 of the data model: within each row's segment the column indices are strictly
increasing. -/
def Inv4 (m : SparseMatrixCSR α) : Prop :=
  ∀ r, r < m.rows →
    (sliceOf m.column_indices (m.row_offsets.getD r 0) (m.row_offsets.getD (r + 1) 0)).Pairwise
      (fun a b => a < b)

/-- Invariant 5 of the data model: no stored value is zero. -/
def Inv5 [Zero α] (m : SparseMatrixCSR α) : Prop :=
  ∀ a ∈ m.nnz_values, a ≠ 0

instance (m : SparseMatrixCSR α) : Decidable (Inv1 m) := by
  unfold Inv1; infer_instance

instance (m : SparseMatrixCSR α) : Decidable (Inv2 m) := by
  unfold Inv2; infer_instance

instance (m : SparseMatrixCSR α) : Decidable (Inv3 m) := by
  unfold Inv3; infer_instance

instance (m : SparseMatrixCSR α) : Decidable (Inv4 m) := by
  unfold Inv4; infer_instance

instance [Zero α] [DecidableEq α] (m : SparseMatrixCSR α) : Decidable (Inv5 m) := by
  unfold Inv5; infer_instance

/-- The states that the public interface produces: the constructor, `buildFromDense` on a
reachable state (after a failed call the receiver is as before), and `transpose` of a
reachable state. -/
inductive Reachable [Zero α] [DecidableEq α] : SparseMatrixCSR α → Prop where
  | constructed (r c : Nat) : Reachable (SparseMatrixCSR.new r c)
  | built (m : SparseMatrixCSR α) (dense : List (List α)) :
      Reachable m → Reachable (buildFromDense m dense).2
  | transposed (m t : SparseMatrixCSR α) :
      Reachable m → transpose m = Except.ok t → Reachable t

end SparseMatrixCSR

/-! ## States given by their rows

The proofs describe a state by the list of its rows, each a list of `(column, value)` pairs. -/

/-- The stored entries of one row: the pairs `(c, f c)` for `c` ascending in `[0, n)` with
`f c` not zero. -/
def sparseRow [Zero α] [DecidableEq α] (f : Nat → α) (n : Nat) : List (Nat × α) :=
  ((List.range n).filter (fun c => decide (f c ≠ 0))).map (fun c => (c, f c))

/-- The row offsets of a list of rows, starting from `base`: the running totals of lengths. -/
def offsetsFrom {β : Type} (base : Nat) : List (List β) → List Nat
  | [] => [base]
  | row :: rest => base :: offsetsFrom (base + row.length) rest

/-- The CSR state that stores the given rows of `(column, value)` pairs. -/
def ofRows (cols : Nat) (rs : List (List (Nat × α))) : SparseMatrixCSR α :=
  { rows := rs.length, cols := cols, nnz := rs.flatten.length,
    row_offsets := offsetsFrom 0 rs,
    column_indices := rs.flatten.map Prod.fst,
    nnz_values := rs.flatten.map Prod.snd }

/-- The rows stored for a dense matrix. -/
def denseRows [Zero α] [DecidableEq α] (rows cols : Nat) (D : List (List α)) :
    List (List (Nat × α)) :=
  (List.range rows).map (fun r => sparseRow (entry D r) cols)

namespace SparseMatrixCSR

/-- The stored rows of a state: row `r` is the segment of the paired arrays
`(column_indices, nnz_values)` between `row_offsets[r]` and `row_offsets[r + 1]`. -/
def toRows (m : SparseMatrixCSR α) : List (List (Nat × α)) :=
  (List.range m.rows).map (fun r =>
    sliceOf (m.column_indices.zip m.nnz_values) (m.row_offsets.getD r 0)
      (m.row_offsets.getD (r + 1) 0))

end SparseMatrixCSR

/-- The sum that `multiply` accumulates over one stored row. -/
def rowSum [Zero α] [Add α] [Mul α] (v : List α) (row : List (Nat × α)) : α :=
  row.foldl (fun s p => s + p.2 * v.getD p.1 0) 0

/-- All stored column indices are below `cols`. -/
def ColsBelow (cols : Nat) (rs : List (List (Nat × α))) : Prop :=
  ∀ row ∈ rs, ∀ p ∈ row, p.1 < cols

/-- The stored entries of the rows from row number `r0` on, each tagged with its row number:
the order in which the scatter loop of `transpose` visits them. -/
def taggedFrom (r0 : Nat) : List (List (Nat × α)) → List (Nat × (Nat × α))
  | [] => []
  | row :: rest => row.map (fun p => (r0, p)) ++ taggedFrom (r0 + 1) rest

/-- The tagged entries whose column is `c`. -/
def inColumn (c : Nat) (P : List (Nat × (Nat × α))) : List (Nat × (Nat × α)) :=
  P.filter (fun e => decide (e.2.1 = c))

/-- The rows of the transposed matrix: new row `c` holds, in the order of the scan, the pairs
`(r, a)` of the entries `(c, a)` of the old rows `r`. -/
def transposeRows (cols : Nat) (rs : List (List (Nat × α))) : List (List (Nat × α)) :=
  (List.range cols).map (fun c => (inColumn c (taggedFrom 0 rs)).map (fun e => (e.1, e.2.2)))

/-- The number of stored entries in column `c`. -/
def colCount (rs : List (List (Nat × α))) (c : Nat) : Nat :=
  (inColumn c (taggedFrom 0 rs)).length

/-- The output array of the scatter loop after the entries `P` have been placed: block `c`
has room for `N c` items, holds the items of column `c` placed so far, then the filler `d`. -/
def blocks {β : Type} (N : Nat → Nat) (d : β) (val : Nat × (Nat × α) → β)
    (P : List (Nat × (Nat × α))) (cols : Nat) : List (List β) :=
  (List.range cols).map (fun c =>
    (inColumn c P).map val ++ List.replicate (N c - (inColumn c P).length) d)

/-- Body of the inner loop of `transpose` (lines 74-87) once the entry `p = (col, value)` at
`idx` has been read. -/
def scatterEntry (col_ele_counts new_row_offsets : List Nat) (row : Nat)
    (st : SparseMatrixCSR α × List Int) (p : Nat × α) :
    Except Error (SparseMatrixCSR α × List Int) := do
  let off ← readAt new_row_offsets p.1
  let cnt ← readAt col_ele_counts p.1
  let ctr ← readAt st.2 p.1
  let new_position : Int := (off : Int) + ((cnt : Int) - ctr)
  let cis ← writeAtInt st.1.column_indices new_position row
  let vals ← writeAtInt st.1.nnz_values new_position p.2
  let ctrs ← writeAt st.2 p.1 (ctr - 1)
  Except.ok ({ st.1 with column_indices := cis, nnz_values := vals }, ctrs)

/-- The state of the scatter loop of `transpose` after the entries `P` have been placed: the
matrix under construction and `col_counters`. -/
def scatterState [Zero α] (cols : Nat) (rs : List (List (Nat × α)))
    (P : List (Nat × (Nat × α))) : SparseMatrixCSR α × List Int :=
  ({ rows := cols, cols := rs.length, nnz := rs.flatten.length,
     row_offsets := offsetsFrom 0 (transposeRows cols rs),
     column_indices := (blocks (colCount rs) 0 (fun e => e.1) P cols).flatten,
     nnz_values := (blocks (colCount rs) 0 (fun e => e.2.2) P cols).flatten },
   (List.range cols).map (fun c => (colCount rs c : Int) - ((inColumn c P).length : Int)))

/-! ## The scatter loop with a record of its placements -/

/-- One placement of the scatter loop of `transpose` (lines 74-85): the new row, the value
of `col_counters[new_row]` that line 82 reads, and the `new_position` that line 82 computes
and lines 84-85 write to. -/
structure Placement where
  new_row : Nat
  counter : Int
  new_position : Int
  deriving DecidableEq

namespace SparseMatrixCSR

/-- Lines 74-82 of `transpose` at `idx`: the placement that the loop body makes. -/
def placementAt (m : SparseMatrixCSR α) (col_ele_counts new_row_offsets : List Nat)
    (col_counters : List Int) (idx : Nat) : Except Error Placement := do
  let col ← readAt m.column_indices idx
  let new_row := col
  let off ← readAt new_row_offsets new_row
  let cnt ← readAt col_ele_counts new_row
  let ctr ← readAt col_counters new_row
  Except.ok ⟨new_row, ctr, (off : Int) + ((cnt : Int) - ctr)⟩

/-- The loop body `scatterStep` that also appends its placement to a record. -/
def scatterStepTraced (m : SparseMatrixCSR α) (col_ele_counts new_row_offsets : List Nat)
    (row : Nat) (st : (SparseMatrixCSR α × List Int) × List Placement) (idx : Nat) :
    Except Error ((SparseMatrixCSR α × List Int) × List Placement) := do
  let pl ← placementAt m col_ele_counts new_row_offsets st.1.2 idx
  let st1 ← scatterStep m col_ele_counts new_row_offsets row st.1 idx
  Except.ok (st1, st.2 ++ [pl])

/-- The outer loop body `scatterRow` with the record of placements. -/
def scatterRowTraced (m : SparseMatrixCSR α) (col_ele_counts new_row_offsets : List Nat)
    (st : (SparseMatrixCSR α × List Int) × List Placement) (row : Nat) :
    Except Error ((SparseMatrixCSR α × List Int) × List Placement) := do
  let lo ← readAt m.row_offsets row
  let hi ← readAt m.row_offsets (row + 1)
  (List.range' lo (hi - lo)).foldlM
    (scatterStepTraced m col_ele_counts new_row_offsets row) st

/-- The method `transpose` together with the record of the placements of its scatter loop,
in the order in which they are made. -/
def transposeTraced [Zero α] (m : SparseMatrixCSR α) :
    Except Error (SparseMatrixCSR α × List Placement) := do
  let col_ele_counts ← m.column_indices.foldlM countStep (List.replicate m.cols 0)
  let new_row_offsets ←
    (List.range m.cols).foldlM (offsetStep col_ele_counts) (List.replicate (m.cols + 1) 0)
  let transposed : SparseMatrixCSR α :=
    { rows := m.cols, cols := m.rows, nnz := m.nnz, row_offsets := new_row_offsets,
      column_indices := List.replicate m.nnz 0, nnz_values := List.replicate m.nnz 0 }
  let col_counters : List Int := col_ele_counts.map Int.ofNat
  let st ← (List.range m.rows).foldlM (scatterRowTraced m col_ele_counts new_row_offsets)
    ((transposed, col_counters), [])
  Except.ok (st.1.1, st.2)

end SparseMatrixCSR

/-- The loop body `scatterStepTraced` once the entry `p = (col, value)` at `idx` has been
read. -/
def scatterEntryTraced (col_ele_counts new_row_offsets : List Nat) (row : Nat)
    (st : (SparseMatrixCSR α × List Int) × List Placement) (p : Nat × α) :
    Except Error ((SparseMatrixCSR α × List Int) × List Placement) := do
  let off ← readAt new_row_offsets p.1
  let cnt ← readAt col_ele_counts p.1
  let ctr ← readAt st.1.2 p.1
  let st1 ← scatterEntry col_ele_counts new_row_offsets row st.1 p
  Except.ok (st1, st.2 ++ [⟨p.1, ctr, (off : Int) + ((cnt : Int) - ctr)⟩])

/-- The placement of the entry `e` when the entries `P` have been placed before it. -/
def placementOf (cols : Nat) (rs : List (List (Nat × α))) (P : List (Nat × (Nat × α)))
    (e : Nat × (Nat × α)) : Placement :=
  ⟨e.2.1, (colCount rs e.2.1 : Int) - ((inColumn e.2.1 P).length : Int),
    ((((transposeRows cols rs).take e.2.1).flatten.length + (inColumn e.2.1 P).length : Nat) :
      Int)⟩

/-- The placements of the entries `Q`, in order, when the entries `P` have been placed before
them. -/
def placementsOf (cols : Nat) (rs : List (List (Nat × α))) :
    List (Nat × (Nat × α)) → List (Nat × (Nat × α)) → List Placement
  | _, [] => []
  | P, e :: Q => placementOf cols rs P e :: placementsOf cols rs (P ++ [e]) Q

/-! ## Auxiliary lemmas

### The `Except` monad and bounds checked subscripts -/
@[simp] theorem bind_ok_eq {ε β γ : Type} (a : β) (f : β → Except ε γ) :
    (Except.ok a >>= f) = f a := rfl

@[simp] theorem bind_error_eq {ε β γ : Type} (e : ε) (f : β → Except ε γ) :
    (Except.error e >>= f) = Except.error e := rfl

theorem readAt_eq_ok {β : Type} {xs : List β} {i : Nat} {x : β} (h : xs[i]? = some x) :
    readAt xs i = Except.ok x := by
  simp [readAt, h]

theorem readAt_of_lt {β : Type} {xs : List β} {i : Nat} (h : i < xs.length) :
    readAt xs i = Except.ok xs[i] := by
  simp [readAt, List.getElem?_eq_getElem h]

theorem writeAt_of_lt {β : Type} {xs : List β} {i : Nat} (x : β) (h : i < xs.length) :
    writeAt xs i x = Except.ok (xs.set i x) := by
  simp [writeAt, h]

/-! ### The loops of `buildFromDense` -/

theorem length_offsetsFrom {β : Type} (rs : List (List β)) (b : Nat) :
    (offsetsFrom b rs).length = rs.length + 1 := by
  induction rs generalizing b with
  | nil => rfl
  | cons row rest ih => simp [offsetsFrom, ih]

theorem offsetsFrom_concat {β : Type} (rs : List (List β)) (row : List β) (b : Nat) :
    offsetsFrom b (rs ++ [row]) = offsetsFrom b rs ++ [b + rs.flatten.length + row.length] := by
  induction rs generalizing b with
  | nil => simp [offsetsFrom]
  | cons r rest ih => simp [offsetsFrom, ih, Nat.add_assoc]

theorem sparseRow_succ [Zero α] [DecidableEq α] (f : Nat → α) (n : Nat) :
    sparseRow f (n + 1) = sparseRow f n ++ (if f n ≠ 0 then [(n, f n)] else []) := by
  unfold sparseRow
  rw [List.range_succ, List.filter_append, List.map_append]
  by_cases h : f n = 0 <;> simp [h]

theorem entry_eq [Zero α] {D : List (List α)} {r c : Nat} {row : List α}
    (hr : D[r]? = some row) (hc : c < row.length) : entry D r c = row[c] := by
  simp [entry, List.getD_eq_getElem?_getD, hr, List.getElem?_eq_getElem hc]

/-- The inner loop of `buildFromDense` on the first `n` columns of row `r`. -/
theorem foldlM_fillCell [Zero α] [DecidableEq α] (D : List (List α)) (r : Nat) (row : List α)
    (hr : D[r]? = some row) (m : SparseMatrixCSR α) (n : Nat) (hn : n ≤ row.length) :
    (List.range n).foldlM (fillCell D r) m =
      Except.ok { m with
        column_indices := m.column_indices ++ (sparseRow (entry D r) n).map Prod.fst,
        nnz_values := m.nnz_values ++ (sparseRow (entry D r) n).map Prod.snd,
        nnz := m.nnz + (sparseRow (entry D r) n).length } := by
  induction n with
  | zero => simp [sparseRow, pure, Except.pure]
  | succ n ih =>
    have hlt : n < row.length := hn
    rw [List.range_succ, List.foldlM_append, ih (Nat.le_of_lt hlt), sparseRow_succ]
    simp only [bind_ok_eq, List.foldlM_cons, List.foldlM_nil, fillCell, readAt_eq_ok hr,
      readAt_of_lt hlt, ← entry_eq hr hlt]
    by_cases h : entry D r n = 0
    · simp [h, pure, Except.pure]
    · simp [h, pure, Except.pure, Nat.add_assoc]

theorem foldlM_checkRow (m : SparseMatrixCSR α) (D : List (List α)) (n : Nat)
    (hn : n ≤ D.length) :
    (List.range n).foldlM (checkRow m D) () =
      if ∀ row ∈ D.take n, row.length = m.cols then Except.ok ()
      else Except.error Error.invalid_argument := by
  induction n with
  | zero => simp [pure, Except.pure]
  | succ n ih =>
    have hlt : n < D.length := hn
    have htake : D.take (n + 1) = D.take n ++ [D[n]] := by
      rw [List.take_succ, List.getElem?_eq_getElem hlt]; rfl
    rw [List.range_succ, List.foldlM_append, ih (Nat.le_of_lt hlt)]
    by_cases h : ∀ row ∈ D.take n, row.length = m.cols
    · rw [if_pos h]
      simp only [bind_ok_eq, List.foldlM_cons, List.foldlM_nil, checkRow, readAt_of_lt hlt]
      by_cases h2 : D[n].length = m.cols
      · have : ∀ row ∈ D.take (n + 1), row.length = m.cols := by
          intro row hrow
          rw [htake, List.mem_append, List.mem_singleton] at hrow
          rcases hrow with hrow | hrow
          · exact h row hrow
          · rw [hrow]; exact h2
        rw [if_pos this]
        simp [h2, pure, Except.pure]
      · have : ¬ ∀ row ∈ D.take (n + 1), row.length = m.cols := by
          intro hall
          exact h2 (hall _ (by rw [htake]; exact List.mem_append_right _ (List.mem_singleton_self _)))
        rw [if_neg this]
        simp [h2]
    · have : ¬ ∀ row ∈ D.take (n + 1), row.length = m.cols := by
        intro hall
        exact h (fun row hrow => hall row (by rw [htake]; exact List.mem_append_left _ hrow))
      rw [if_neg h, if_neg this]
      rfl

/-- Lines 6-14 of `buildFromDense` accept exactly the dense matrices of the receiver's shape. -/
theorem checkDense_eq (m : SparseMatrixCSR α) (D : List (List α)) :
    checkDense m D =
      if IsDense m.rows m.cols D then Except.ok () else Except.error Error.invalid_argument := by
  unfold checkDense IsDense
  by_cases h : D.length = m.rows
  · rw [if_neg (not_not.mpr h), foldlM_checkRow m D m.rows (by omega), ← h, List.take_length]
    simp
  · simp [h]

/-- The outer loop of `buildFromDense` on the first `n` rows. -/
theorem foldlM_fillRow [Zero α] [DecidableEq α] (D : List (List α)) (R C : Nat)
    (hD : IsDense R C D) (offs : List Nat) (hoffs : offs.length = R + 1) (n : Nat) (hn : n ≤ R) :
    (List.range n).foldlM (fillRow D)
        { rows := R, cols := C, nnz := 0, row_offsets := offs.set 0 0,
          column_indices := [], nnz_values := [] } =
      Except.ok
        { rows := R, cols := C, nnz := (denseRows n C D).flatten.length,
          row_offsets := offsetsFrom 0 (denseRows n C D) ++ offs.drop (n + 1),
          column_indices := (denseRows n C D).flatten.map Prod.fst,
          nnz_values := (denseRows n C D).flatten.map Prod.snd } := by
  induction n with
  | zero =>
    cases offs with
    | nil => simp at hoffs
    | cons a rest => simp [denseRows, offsetsFrom, pure, Except.pure]
  | succ n ih =>
    have hlt : n < D.length := by rw [hD.1]; exact hn
    have hrow : D[n].length = C := hD.2 _ (List.getElem_mem hlt)
    have hsucc : denseRows (n + 1) C D = denseRows n C D ++ [sparseRow (entry D n) C] := by
      simp [denseRows, List.range_succ]
    have hlen : (denseRows n C D).length = n := by simp [denseRows]
    rw [List.range_succ, List.foldlM_append, ih (Nat.le_of_lt hn)]
    simp only [bind_ok_eq, List.foldlM_cons, List.foldlM_nil, fillRow]
    rw [foldlM_fillCell D n D[n] (List.getElem?_eq_getElem hlt) _ C (by omega)]
    simp only [bind_ok_eq]
    rw [writeAt_of_lt _ (by simp [length_offsetsFrom, hlen]; omega)]
    simp only [bind_ok_eq, pure, Except.pure, hsucc, offsetsFrom_concat, List.flatten_append,
      List.flatten_cons, List.flatten_nil, List.append_nil, List.map_append, List.length_append,
      Nat.zero_add]
    congr 2
    rw [List.set_append_right _ _ (by simp [length_offsetsFrom, hlen])]
    simp only [length_offsetsFrom, hlen, Nat.sub_self, List.append_assoc]
    congr 1
    have hd : offs.drop (n + 1) = offs[n + 1] :: offs.drop (n + 1 + 1) :=
      List.drop_eq_getElem_cons (by omega)
    rw [hd, List.set_cons_zero]
    rfl

/-- Lines 16-33 of `buildFromDense` on a dense matrix of the receiver's shape. -/
theorem fillFromDense_eq [Zero α] [DecidableEq α] (m : SparseMatrixCSR α) (D : List (List α))
    (hD : IsDense m.rows m.cols D) (hm : m.row_offsets.length = m.rows + 1) :
    fillFromDense m D = Except.ok (ofRows m.cols (denseRows m.rows m.cols D)) := by
  unfold fillFromDense
  simp only []
  rw [writeAt_of_lt _ (by omega)]
  simp only [bind_ok_eq]
  rw [foldlM_fillRow D m.rows m.cols hD m.row_offsets hm m.rows (Nat.le_refl _)]
  rw [List.drop_of_length_le (by omega)]
  simp [ofRows, denseRows]

/-- The outcome of `buildFromDense` in full. -/
theorem buildFromDense_eq [Zero α] [DecidableEq α] (m : SparseMatrixCSR α) (D : List (List α))
    (hm : m.row_offsets.length = m.rows + 1) :
    buildFromDense m D =
      if IsDense m.rows m.cols D then
        (Except.ok (), ofRows m.cols (denseRows m.rows m.cols D))
      else (Except.error Error.invalid_argument, m) := by
  unfold buildFromDense
  rw [checkDense_eq]
  by_cases h : IsDense m.rows m.cols D
  · simp only [if_pos h]
    rw [fillFromDense_eq m D h hm]
  · simp only [if_neg h]

/-! ### Reading a state given by rows -/

theorem getElem?_offsetsFrom {β : Type} (rs : List (List β)) (b r : Nat) (hr : r ≤ rs.length) :
    (offsetsFrom b rs)[r]? = some (b + (rs.take r).flatten.length) := by
  induction rs generalizing b r with
  | nil =>
    have : r = 0 := by simpa using hr
    subst this
    simp [offsetsFrom]
  | cons row rest ih =>
    cases r with
    | zero => simp [offsetsFrom]
    | succ r =>
      have hr2 : r ≤ rest.length := by simpa using hr
      simp [offsetsFrom, ih _ _ hr2, Nat.add_assoc]

theorem readAt_offsetsFrom {β : Type} (rs : List (List β)) (r : Nat) (hr : r ≤ rs.length) :
    readAt (offsetsFrom 0 rs) r = Except.ok (rs.take r).flatten.length := by
  apply readAt_eq_ok
  rw [getElem?_offsetsFrom rs 0 r hr, Nat.zero_add]

theorem take_succ_getElem {β : Type} (xs : List β) (n : Nat) (hn : n < xs.length) :
    xs.take (n + 1) = xs.take n ++ [xs[n]] := by
  rw [List.take_succ, List.getElem?_eq_getElem hn]; rfl

theorem readAt_map {β γ : Type} (f : β → γ) (xs : List β) (i : Nat) (hi : i < xs.length) :
    readAt (xs.map f) i = Except.ok (f xs[i]) := by
  apply readAt_eq_ok
  rw [List.getElem?_map, List.getElem?_eq_getElem hi]; rfl

theorem flatten_take_succ {β : Type} (rs : List (List β)) (r : Nat) (hr : r < rs.length) :
    (rs.take (r + 1)).flatten = (rs.take r).flatten ++ rs[r] := by
  rw [take_succ_getElem rs r hr, List.flatten_append]
  simp only [List.flatten_cons, List.flatten_nil, List.append_nil]

theorem flatten_take_length_le {β : Type} (rs : List (List β)) (r : Nat) :
    (rs.take r).flatten.length ≤ rs.flatten.length := by
  conv => rhs; rw [← List.take_append_drop r rs]
  rw [List.flatten_append, List.length_append]
  omega

theorem segment_flatten {β : Type} (rs : List (List β)) (r : Nat) (hr : r < rs.length) :
    (rs.flatten.drop (rs.take r).flatten.length).take rs[r].length = rs[r] := by
  have h1 : rs.flatten = (rs.take r).flatten ++ (rs[r] ++ (rs.drop (r + 1)).flatten) := by
    conv => lhs; rw [← List.take_append_drop r rs]
    rw [List.flatten_append, List.drop_eq_getElem_cons hr, List.flatten_cons]
  rw [h1, List.drop_left, List.take_left]

/-- A loop over the indices `lo, .., lo + n - 1` whose body only reads entry `idx` of a list is
a fold over that segment of the list. -/
theorem foldlM_range_segment {σ β : Type} (E : List β) (F : σ → Nat → Except Error σ)
    (G : σ → β → Except Error σ)
    (hFG : ∀ s idx (h : idx < E.length), F s idx = G s E[idx])
    (n lo : Nat) (h : lo + n ≤ E.length) (s : σ) :
    (List.range' lo n).foldlM F s = ((E.drop lo).take n).foldlM G s := by
  induction n generalizing lo s with
  | zero => simp
  | succ n ih =>
    have hlo : lo < E.length := by omega
    rw [List.range'_succ, List.drop_eq_getElem_cons hlo, List.take_succ_cons,
      List.foldlM_cons, List.foldlM_cons, hFG s lo hlo]
    cases hG : G s E[lo] with
    | error e => rfl
    | ok s1 =>
      simp only [bind_ok_eq]
      exact ih (lo + 1) (by omega) s1

theorem foldlM_multiply_row [Zero α] [Add α] [Mul α] (v : List α) (row : List (Nat × α))
    (hrow : ∀ p ∈ row, p.1 < v.length) (s : α) :
    row.foldlM (fun (s : α) (p : Nat × α) => do
        let x ← readAt v p.1
        Except.ok (s + p.2 * x)) s =
      Except.ok (row.foldl (fun s p => s + p.2 * v.getD p.1 0) s) := by
  induction row generalizing s with
  | nil => rfl
  | cons p rest ih =>
    have hp : p.1 < v.length := hrow p (List.mem_cons_self _ _)
    rw [List.foldlM_cons, readAt_of_lt hp]
    simp only [bind_ok_eq, List.foldl_cons]
    rw [ih (fun q hq => hrow q (List.mem_cons_of_mem _ hq))]
    simp [List.getD_eq_getElem?_getD, List.getElem?_eq_getElem hp]

theorem multiplyRow_ofRows [Zero α] [Add α] [Mul α] (C : Nat) (rs : List (List (Nat × α)))
    (v : List α) (hv : v.length = C) (hC : ColsBelow C rs) (r : Nat) (hr : r < rs.length)
    (result : List α) :
    multiplyRow (ofRows C rs) v result r = writeAt result r (rowSum v rs[r]) := by
  unfold multiplyRow
  simp only [ofRows]
  rw [readAt_offsetsFrom rs r (Nat.le_of_lt hr), readAt_offsetsFrom rs (r + 1) hr]
  simp only [bind_ok_eq]
  rw [flatten_take_succ rs r hr, List.length_append, Nat.add_sub_cancel_left]
  rw [foldlM_range_segment rs.flatten _
    (fun (s : α) (p : Nat × α) => do
        let x ← readAt v p.1
        Except.ok (s + p.2 * x))
    _ rs[r].length (rs.take r).flatten.length _ 0]
  · rw [segment_flatten rs r hr, foldlM_multiply_row v rs[r] _ 0]
    · rfl
    · intro p hp
      rw [hv]
      exact hC _ (List.getElem_mem hr) p hp
  · intro s idx h
    simp only [multiplyStep]
    rw [readAt_map _ _ _ h, readAt_map _ _ _ h]
    rfl
  · have := flatten_take_length_le rs (r + 1)
    rw [flatten_take_succ rs r hr, List.length_append] at this
    exact this

theorem foldlM_multiplyRow [Zero α] [Add α] [Mul α] (C : Nat) (rs : List (List (Nat × α)))
    (v : List α) (hv : v.length = C) (hC : ColsBelow C rs) (n : Nat) (hn : n ≤ rs.length) :
    (List.range n).foldlM (multiplyRow (ofRows C rs) v) (List.replicate rs.length 0) =
      Except.ok ((rs.take n).map (rowSum v) ++ List.replicate (rs.length - n) 0) := by
  induction n with
  | zero => simp [pure, Except.pure]
  | succ n ih =>
    have hlt : n < rs.length := hn
    rw [List.range_succ, List.foldlM_append, ih (Nat.le_of_lt hlt)]
    simp only [bind_ok_eq, List.foldlM_cons, List.foldlM_nil]
    rw [multiplyRow_ofRows C rs v hv hC n hlt, writeAt_of_lt _ (by simp; omega)]
    simp only [bind_ok_eq, pure, Except.pure]
    congr 1
    have hlen : ((rs.take n).map (rowSum v)).length = n := by simp; omega
    rw [List.set_append_right _ _ (by omega), hlen, Nat.sub_self]
    have hrep : List.replicate (rs.length - n) (0 : α) = 0 :: List.replicate (rs.length - (n + 1)) 0 := by
      rw [← List.replicate_succ]; congr 1; omega
    rw [hrep, List.set_cons_zero, take_succ_getElem rs n hlt, List.map_append]
    simp only [List.map_cons, List.map_nil, List.append_assoc, List.singleton_append]

/-- The method `multiply` on a state given by rows. -/
theorem multiply_ofRows [Zero α] [Add α] [Mul α] (C : Nat) (rs : List (List (Nat × α)))
    (v : List α) (hv : v.length = C) (hC : ColsBelow C rs) :
    multiply (ofRows C rs) v = Except.ok (rs.map (rowSum v)) := by
  unfold multiply
  rw [if_neg (by simpa [ofRows] using hv)]
  have := foldlM_multiplyRow C rs v hv hC rs.length (Nat.le_refl _)
  simpa [ofRows] using this

theorem set_flatten {β : Type} (L : List (List β)) (c k : Nat) (x : β) (hc : c < L.length)
    (hk : k < L[c].length) :
    L.flatten.set ((L.take c).flatten.length + k) x = (L.set c (L[c].set k x)).flatten := by
  have h1 : L = L.take c ++ L[c] :: L.drop (c + 1) := by
    rw [← List.drop_eq_getElem_cons hc, List.take_append_drop]
  have h2 : L.set c (L[c].set k x) = L.take c ++ L[c].set k x :: L.drop (c + 1) := by
    rw [List.set_eq_take_append_cons_drop, if_pos hc]
  rw [h2]
  conv => lhs; arg 1; rw [h1]
  rw [List.flatten_append, List.flatten_append, List.flatten_cons, List.flatten_cons,
    List.set_append_right _ _ (by omega), Nat.add_sub_cancel_left,
    List.set_append_left _ _ hk]

theorem map_range_set {β : Type} (f : Nat → β) (n c : Nat) (x : β) (hc : c < n) :
    ((List.range n).map f).set c x = (List.range n).map (fun i => if i = c then x else f i) := by
  apply List.ext_getElem?
  intro i
  rw [List.getElem?_set]
  by_cases hi : i < n
  · by_cases hic : c = i
    · subst hic
      simp [hi]
    · have : ¬ i = c := fun h => hic h.symm
      simp [hi, hic, this, List.getElem?_eq_getElem]
  · have h1 : ((List.range n).map f)[i]? = none := by
      apply List.getElem?_eq_none; simp; omega
    have h2 : ((List.range n).map (fun i => if i = c then x else f i))[i]? = none := by
      apply List.getElem?_eq_none; simp; omega
    rw [h1, h2]
    have : c ≠ i := by omega
    simp [this]

theorem inColumn_append (c : Nat) (P Q : List (Nat × (Nat × α))) :
    inColumn c (P ++ Q) = inColumn c P ++ inColumn c Q := by
  simp [inColumn]

theorem inColumn_singleton (c : Nat) (e : Nat × (Nat × α)) :
    inColumn c [e] = if e.2.1 = c then [e] else [] := by
  by_cases h : e.2.1 = c <;> simp [inColumn, h]

theorem length_blocks {β : Type} (N : Nat → Nat) (d : β) (val : Nat × (Nat × α) → β)
    (P : List (Nat × (Nat × α))) (C : Nat) : (blocks N d val P C).length = C := by
  simp [blocks]

/-- Placing the next entry `e` at its position turns the output array for `P` into the one
for `P ++ [e]`. -/
theorem blocks_set {β : Type} (N : Nat → Nat) (d : β) (val : Nat × (Nat × α) → β)
    (P : List (Nat × (Nat × α))) (C : Nat) (e : Nat × (Nat × α)) (he : e.2.1 < C)
    (hroom : (inColumn e.2.1 P).length < N e.2.1) :
    (blocks N d val P C).flatten.set
        (((blocks N d val P C).take e.2.1).flatten.length + (inColumn e.2.1 P).length) (val e) =
      (blocks N d val (P ++ [e]) C).flatten := by
  have hlen := length_blocks N d val P C
  have hlt : e.2.1 < (blocks N d val P C).length := by rw [hlen]; exact he
  have hget : (blocks N d val P C)[e.2.1] =
      (inColumn e.2.1 P).map val ++
        List.replicate (N e.2.1 - (inColumn e.2.1 P).length) d := by
    simp [blocks]
  rw [set_flatten _ _ _ _ hlt (by rw [hget]; simp; omega)]
  congr 1
  rw [hget]
  unfold blocks
  rw [map_range_set _ _ _ _ he]
  apply List.map_congr_left
  intro c hc
  by_cases hce : c = e.2.1
  · subst hce
    rw [if_pos rfl, inColumn_append, inColumn_singleton, if_pos rfl]
    rw [List.set_append_right _ _ (by simp)]
    simp only [List.length_map, Nat.sub_self, List.map_append, List.map_cons, List.map_nil,
      List.length_append, List.length_cons, List.length_nil, List.append_assoc]
    congr 1
    have : N e.2.1 - (inColumn e.2.1 P).length =
        (N e.2.1 - ((inColumn e.2.1 P).length + 0 + 1)) + 1 := by
      omega
    rw [this, List.replicate_succ, List.set_cons_zero]
    rfl
  · rw [if_neg hce, inColumn_append, inColumn_singleton, if_neg (fun h => hce h.symm)]
    simp

/-! ### The counting and prefix sum loops of `transpose` -/

theorem foldlM_countStep (C : Nat) (l : List Nat) (hl : ∀ c ∈ l, c < C) (f : Nat → Nat) :
    l.foldlM countStep ((List.range C).map f) =
      Except.ok ((List.range C).map (fun c => f c + l.count c)) := by
  induction l generalizing f with
  | nil => simp [pure, Except.pure]
  | cons col rest ih =>
    have hcol : col < C := hl col (List.mem_cons_self _ _)
    have hlen : col < ((List.range C).map f).length := by simpa using hcol
    rw [List.foldlM_cons]
    simp only [countStep]
    rw [readAt_of_lt hlen, bind_ok_eq, writeAt_of_lt _ hlen, bind_ok_eq,
      map_range_set _ _ _ _ hcol, ih (fun c hc => hl c (List.mem_cons_of_mem _ hc))]
    congr 1
    apply List.map_congr_left
    intro c _
    by_cases hc : c = col
    · subst hc
      simp [List.count_cons_self]
      omega
    · have : ¬ (col == c) = true := by simpa using fun h => hc h.symm
      simp [hc, List.count_cons, this]

theorem foldlM_offsetStep {β : Type} (T : List (List β)) (cnts : List Nat)
    (hcnts : cnts = T.map List.length) (n : Nat) (hn : n ≤ T.length) :
    (List.range n).foldlM (offsetStep cnts) (List.replicate (T.length + 1) 0) =
      Except.ok (offsetsFrom 0 (T.take n) ++ List.replicate (T.length - n) 0) := by
  induction n with
  | zero => simp [offsetsFrom, pure, Except.pure, List.replicate_succ]
  | succ n ih =>
    have hlt : n < T.length := hn
    have hlen : (offsetsFrom 0 (T.take n)).length = n + 1 := by
      rw [length_offsetsFrom, List.length_take, Nat.min_eq_left (Nat.le_of_lt hlt)]
    have hread : readAt (offsetsFrom 0 (T.take n) ++ List.replicate (T.length - n) 0) n =
        Except.ok (T.take n).flatten.length := by
      apply readAt_eq_ok
      rw [List.getElem?_append_left (by omega),
        getElem?_offsetsFrom _ 0 n (by simp; omega), Nat.zero_add, List.take_take,
        Nat.min_self]
    rw [List.range_succ, List.foldlM_append, ih (Nat.le_of_lt hlt)]
    simp only [bind_ok_eq, List.foldlM_cons, List.foldlM_nil, offsetStep]
    rw [hread, bind_ok_eq, @readAt_eq_ok _ _ _ T[n].length
      (by rw [hcnts, List.getElem?_map, List.getElem?_eq_getElem hlt]; rfl), bind_ok_eq,
      writeAt_of_lt _ (by simp [hlen]; omega)]
    simp only [bind_ok_eq, pure, Except.pure]
    congr 1
    rw [List.set_append_right _ _ (by omega), hlen, Nat.sub_self,
      take_succ_getElem T n hlt, offsetsFrom_concat, Nat.zero_add]
    have hrep : List.replicate (T.length - n) 0 = 0 :: List.replicate (T.length - (n + 1)) 0 := by
      rw [← List.replicate_succ]; congr 1; omega
    rw [hrep, List.set_cons_zero]
    simp only [List.append_assoc, List.singleton_append]

/-! ### Splitting a list of entries by column -/

theorem flatten_inColumn_perm (P : List (Nat × (Nat × α))) (C : Nat) :
    List.Perm ((List.range C).map (fun c => inColumn c P)).flatten
      (P.filter (fun e => decide (e.2.1 < C))) := by
  induction C with
  | zero => simp
  | succ C ih =>
    rw [List.range_succ, List.map_append, List.flatten_append]
    simp only [List.map_cons, List.map_nil, List.flatten_cons, List.flatten_nil,
      List.append_nil]
    have h1 : P.filter (fun e => decide (e.2.1 < C)) =
        (P.filter (fun e => decide (e.2.1 < C + 1))).filter (fun e => decide (e.2.1 < C)) := by
      rw [List.filter_filter]
      apply List.filter_congr
      intro e _
      by_cases h : e.2.1 < C
      · have : e.2.1 < C + 1 := by omega
        simp [h, this]
      · simp [h]
    have h2 : inColumn C P =
        (P.filter (fun e => decide (e.2.1 < C + 1))).filter
          (fun e => !(decide (e.2.1 < C))) := by
      rw [List.filter_filter]
      unfold inColumn
      apply List.filter_congr
      intro e _
      by_cases h : e.2.1 = C
      · simp [h]
      · by_cases h3 : e.2.1 < C
        · simp [h, h3]
        · have : ¬ e.2.1 < C + 1 := by omega
          simp [h, h3, this]
    refine (List.Perm.append_right _ ih).trans ?_
    rw [h1, h2]
    exact List.filter_append_perm _ _

theorem filter_cols_below (rs : List (List (Nat × α))) (C : Nat) (r0 : Nat)
    (hC : ColsBelow C rs) :
    (taggedFrom r0 rs).filter (fun e => decide (e.2.1 < C)) = taggedFrom r0 rs := by
  rw [List.filter_eq_self]
  intro e he
  induction rs generalizing r0 with
  | nil => simp [taggedFrom] at he
  | cons row rest ih =>
    simp only [taggedFrom, List.mem_append, List.mem_map] at he
    rcases he with ⟨p, hp, rfl⟩ | he
    · simpa using hC row (List.mem_cons_self _ _) p hp
    · exact ih (r0 + 1) (fun row hrow => hC row (List.mem_cons_of_mem _ hrow)) he

theorem length_taggedFrom (rs : List (List (Nat × α))) (r0 : Nat) :
    (taggedFrom r0 rs).length = rs.flatten.length := by
  induction rs generalizing r0 with
  | nil => rfl
  | cons row rest ih => simp [taggedFrom, ih]

theorem taggedFrom_append (A B : List (List (Nat × α))) (r0 : Nat) :
    taggedFrom r0 (A ++ B) = taggedFrom r0 A ++ taggedFrom (r0 + A.length) B := by
  induction A generalizing r0 with
  | nil => simp [taggedFrom]
  | cons row rest ih =>
    simp [taggedFrom, ih, Nat.add_assoc, Nat.add_comm 1]

theorem map_snd_taggedFrom (rs : List (List (Nat × α))) (r0 : Nat) :
    (taggedFrom r0 rs).map Prod.snd = rs.flatten := by
  induction rs generalizing r0 with
  | nil => rfl
  | cons row rest ih => simp [taggedFrom, ih]

/-! ### The scatter loop of `transpose` -/

theorem lt_length_flatten {β : Type} (L : List (List β)) (c k : Nat) (hc : c < L.length)
    (hk : k < L[c].length) : (L.take c).flatten.length + k < L.flatten.length := by
  have h1 : L = L.take c ++ L[c] :: L.drop (c + 1) := by
    rw [← List.drop_eq_getElem_cons hc, List.take_append_drop]
  conv => rhs; rw [h1]
  rw [List.flatten_append, List.flatten_cons, List.length_append, List.length_append]
  omega

theorem length_flatten_take_eq {β γ : Type} (L : List (List β)) (M : List (List γ))
    (h : L.map List.length = M.map List.length) (c : Nat) :
    (L.take c).flatten.length = (M.take c).flatten.length := by
  rw [List.length_flatten, List.length_flatten, List.map_take, List.map_take, h]

theorem inColumn_length_le (c : Nat) (P Q : List (Nat × (Nat × α))) :
    (inColumn c P).length ≤ (inColumn c (P ++ Q)).length := by
  rw [inColumn_append, List.length_append]
  omega

theorem map_length_blocks {β : Type} (N : Nat → Nat) (d : β) (val : Nat × (Nat × α) → β)
    (P : List (Nat × (Nat × α))) (C : Nat) (hP : ∀ c, (inColumn c P).length ≤ N c) :
    (blocks N d val P C).map List.length = (List.range C).map N := by
  unfold blocks
  rw [List.map_map]
  apply List.map_congr_left
  intro c _
  have := hP c
  simp only [Function.comp, List.length_append, List.length_map, List.length_replicate]
  omega

theorem map_length_transposeRows (C : Nat) (rs : List (List (Nat × α))) :
    (transposeRows C rs).map List.length = (List.range C).map (colCount rs) := by
  unfold transposeRows
  rw [List.map_map]
  apply List.map_congr_left
  intro c _
  simp [colCount]

theorem writeAtInt_eq {β : Type} (xs : List β) (off cnt k : Nat) (x : β) :
    writeAtInt xs ((off : Int) + ((cnt : Int) - ((cnt : Int) - (k : Int)))) x =
      writeAt xs (off + k) x := by
  have h : ((off : Int) + ((cnt : Int) - ((cnt : Int) - (k : Int)))) = ((off + k : Nat) : Int) := by
    push_cast; omega
  rw [h]
  unfold writeAtInt
  rw [if_pos (Int.ofNat_nonneg _), Int.toNat_ofNat]

/-- One placement of the scatter loop. -/
theorem scatterEntry_state [Zero α] (C : Nat) (rs : List (List (Nat × α)))
    (P Q : List (Nat × (Nat × α))) (r : Nat) (p : Nat × α)
    (hsplit : taggedFrom 0 rs = P ++ (r, p) :: Q) (hp : p.1 < C) :
    scatterEntry ((List.range C).map (colCount rs)) (offsetsFrom 0 (transposeRows C rs)) r
        (scatterState C rs P) p =
      Except.ok (scatterState C rs (P ++ [(r, p)])) := by
  have hP : ∀ c, (inColumn c P).length ≤ colCount rs c := by
    intro c
    unfold colCount
    rw [hsplit]
    exact inColumn_length_le c P _
  have hroom : (inColumn p.1 P).length < colCount rs p.1 := by
    unfold colCount
    rw [hsplit, inColumn_append]
    simp [inColumn]
  have hTlen : (transposeRows C rs).length = C := by simp [transposeRows]
  have hoff : ∀ {β : Type} (d : β) (val : Nat × (Nat × α) → β),
      ((transposeRows C rs).take p.1).flatten.length =
        ((blocks (colCount rs) d val P C).take p.1).flatten.length := by
    intro β d val
    apply length_flatten_take_eq
    rw [map_length_transposeRows, map_length_blocks _ _ _ _ _ hP]
  have hblk : ∀ {β : Type} (d : β) (val : Nat × (Nat × α) → β)
      (hlt : p.1 < (blocks (colCount rs) d val P C).length),
      (inColumn p.1 P).length < ((blocks (colCount rs) d val P C)[p.1]).length := by
    intro β d val hlt
    simp [blocks]
    omega
  have hwrite : ∀ {β : Type} (d : β) (val : Nat × (Nat × α) → β),
      writeAt (blocks (colCount rs) d val P C).flatten
          (((transposeRows C rs).take p.1).flatten.length + (inColumn p.1 P).length)
          (val (r, p)) =
        Except.ok (blocks (colCount rs) d val (P ++ [(r, p)]) C).flatten := by
    intro β d val
    rw [hoff d val, writeAt_of_lt _
      (lt_length_flatten _ _ _ (by rw [length_blocks]; exact hp)
        (hblk d val (by rw [length_blocks]; exact hp)))]
    congr 1
    exact blocks_set (colCount rs) d val P C (r, p) hp hroom
  unfold scatterEntry scatterState
  rw [readAt_offsetsFrom _ _ (by rw [hTlen]; omega), bind_ok_eq,
    @readAt_eq_ok _ _ _ (colCount rs p.1) (by simp [hp]), bind_ok_eq,
    @readAt_eq_ok _ _ _ ((colCount rs p.1 : Int) - ((inColumn p.1 P).length : Int))
      (by simp [hp]), bind_ok_eq]
  simp only []
  rw [writeAtInt_eq, writeAtInt_eq,
    hwrite 0 (fun e => e.1), bind_ok_eq, hwrite 0 (fun e => e.2.2), bind_ok_eq,
    writeAt_of_lt _ (by simpa using hp), bind_ok_eq, map_range_set _ _ _ _ hp]
  congr 3
  funext c
  by_cases hc : c = p.1
  · subst hc
    rw [if_pos rfl, inColumn_append, inColumn_singleton, if_pos rfl]
    simp only [List.length_append, List.length_cons, List.length_nil]
    push_cast
    omega
  · rw [if_neg hc, inColumn_append, inColumn_singleton, if_neg (fun h => hc h.symm)]
    simp

/-- The placements for the entries of one row. -/
theorem foldlM_scatterEntry [Zero α] (C : Nat) (rs : List (List (Nat × α))) (r : Nat)
    (row : List (Nat × α)) (P Q : List (Nat × (Nat × α)))
    (hsplit : taggedFrom 0 rs = P ++ (row.map (fun p => (r, p)) ++ Q))
    (hrow : ∀ p ∈ row, p.1 < C) :
    row.foldlM
        (scatterEntry ((List.range C).map (colCount rs)) (offsetsFrom 0 (transposeRows C rs)) r)
        (scatterState C rs P) =
      Except.ok (scatterState C rs (P ++ row.map (fun p => (r, p)))) := by
  induction row generalizing P with
  | nil => simp [pure, Except.pure]
  | cons p rest ih =>
    rw [List.foldlM_cons,
      scatterEntry_state C rs P (rest.map (fun p => (r, p)) ++ Q) r p (by simpa using hsplit)
        (hrow p (List.mem_cons_self _ _)),
      bind_ok_eq, ih (P ++ [(r, p)]) (by simpa using hsplit)
        (fun q hq => hrow q (List.mem_cons_of_mem _ hq))]
    simp

theorem scatterRow_ofRows (C : Nat) (rs : List (List (Nat × α))) (cnts offs : List Nat)
    (st : SparseMatrixCSR α × List Int) (r : Nat) (hr : r < rs.length) :
    scatterRow (ofRows C rs) cnts offs st r = rs[r].foldlM (scatterEntry cnts offs r) st := by
  unfold scatterRow
  simp only [ofRows]
  rw [readAt_offsetsFrom rs r (Nat.le_of_lt hr), readAt_offsetsFrom rs (r + 1) hr]
  simp only [bind_ok_eq]
  rw [flatten_take_succ rs r hr, List.length_append, Nat.add_sub_cancel_left]
  rw [foldlM_range_segment rs.flatten _ (scatterEntry cnts offs r) _ rs[r].length
    (rs.take r).flatten.length _ st]
  · rw [segment_flatten rs r hr]
  · intro s idx h
    simp only [scatterStep]
    rw [readAt_map _ _ _ h, readAt_map _ _ _ h]
    rfl
  · have := flatten_take_length_le rs (r + 1)
    rw [flatten_take_succ rs r hr, List.length_append] at this
    exact this

theorem taggedFrom_take_succ (rs : List (List (Nat × α))) (n : Nat) (hn : n < rs.length) :
    taggedFrom 0 (rs.take (n + 1)) =
      taggedFrom 0 (rs.take n) ++ rs[n].map (fun p => (n, p)) := by
  rw [take_succ_getElem rs n hn, taggedFrom_append]
  simp [taggedFrom, List.length_take, Nat.min_eq_left (Nat.le_of_lt hn)]

theorem taggedFrom_split (rs : List (List (Nat × α))) (n : Nat) (hn : n < rs.length) :
    taggedFrom 0 rs = taggedFrom 0 (rs.take n) ++
      (rs[n].map (fun p => (n, p)) ++ taggedFrom (n + 1) (rs.drop (n + 1))) := by
  have h1 : rs = rs.take n ++ rs[n] :: rs.drop (n + 1) := by
    rw [← List.drop_eq_getElem_cons hn, List.take_append_drop]
  conv => lhs; rw [h1]
  rw [taggedFrom_append]
  simp [taggedFrom, List.length_take, Nat.min_eq_left (Nat.le_of_lt hn)]

/-- The scatter loop over the first `n` rows. -/
theorem foldlM_scatterRow [Zero α] (C : Nat) (rs : List (List (Nat × α)))
    (hC : ColsBelow C rs) (n : Nat) (hn : n ≤ rs.length) :
    (List.range n).foldlM
        (scatterRow (ofRows C rs) ((List.range C).map (colCount rs))
          (offsetsFrom 0 (transposeRows C rs)))
        (scatterState C rs []) =
      Except.ok (scatterState C rs (taggedFrom 0 (rs.take n))) := by
  induction n with
  | zero => simp [taggedFrom, pure, Except.pure]
  | succ n ih =>
    have hlt : n < rs.length := hn
    rw [List.range_succ, List.foldlM_append, ih (Nat.le_of_lt hlt)]
    simp only [bind_ok_eq, List.foldlM_cons, List.foldlM_nil]
    rw [scatterRow_ofRows C rs _ _ _ n hlt,
      foldlM_scatterEntry C rs n rs[n] _ _ (taggedFrom_split rs n hlt)
        (hC _ (List.getElem_mem hlt)),
      bind_ok_eq, taggedFrom_take_succ rs n hlt]
    rfl

theorem flatten_map_replicate {β : Type} (f : Nat → Nat) (d : β) (C : Nat) :
    ((List.range C).map (fun c => List.replicate (f c) d)).flatten =
      List.replicate ((List.range C).map f).sum d := by
  induction C with
  | zero => simp
  | succ C ih =>
    rw [List.range_succ, List.map_append, List.flatten_append, ih, List.map_append,
      List.sum_append]
    simp only [List.map_cons, List.map_nil, List.flatten_cons, List.flatten_nil,
      List.append_nil, List.sum_cons, List.sum_nil, Nat.add_zero,
      List.append_replicate_replicate]

theorem sum_colCount (C : Nat) (rs : List (List (Nat × α))) (hC : ColsBelow C rs) :
    ((List.range C).map (colCount rs)).sum = rs.flatten.length := by
  have h := (flatten_inColumn_perm (taggedFrom 0 rs) C).length_eq
  rw [filter_cols_below rs C 0 hC, length_taggedFrom, List.length_flatten, List.map_map] at h
  rw [← h]
  rfl

theorem length_flatten_transposeRows (C : Nat) (rs : List (List (Nat × α)))
    (hC : ColsBelow C rs) : (transposeRows C rs).flatten.length = rs.flatten.length := by
  rw [List.length_flatten, map_length_transposeRows, sum_colCount C rs hC]

theorem count_column_indices (rs : List (List (Nat × α))) (c : Nat) :
    (rs.flatten.map Prod.fst).count c = colCount rs c := by
  rw [← map_snd_taggedFrom rs 0, List.map_map, List.count, List.countP_map,
    List.countP_eq_length_filter]
  unfold colCount inColumn
  congr 1

theorem scatterState_nil [Zero α] (C : Nat) (rs : List (List (Nat × α)))
    (hC : ColsBelow C rs) :
    scatterState C rs [] =
      ({ rows := C, cols := rs.length, nnz := rs.flatten.length,
         row_offsets := offsetsFrom 0 (transposeRows C rs),
         column_indices := List.replicate rs.flatten.length 0,
         nnz_values := List.replicate rs.flatten.length 0 },
       ((List.range C).map (colCount rs)).map Int.ofNat) := by
  unfold scatterState blocks
  simp only [inColumn, List.filter_nil, List.map_nil, List.nil_append, List.length_nil,
    Nat.sub_zero, flatten_map_replicate, sum_colCount C rs hC, List.map_map]
  congr 2

theorem scatterState_full [Zero α] (C : Nat) (rs : List (List (Nat × α)))
    (hC : ColsBelow C rs) :
    (scatterState C rs (taggedFrom 0 rs)).1 = ofRows rs.length (transposeRows C rs) := by
  unfold scatterState ofRows
  simp only [length_flatten_transposeRows C rs hC]
  have hb : ∀ {β : Type} (d : β) (val : Nat × (Nat × α) → β),
      blocks (colCount rs) d val (taggedFrom 0 rs) C =
        (List.range C).map (fun c => (inColumn c (taggedFrom 0 rs)).map val) := by
    intro β d val
    unfold blocks
    apply List.map_congr_left
    intro c _
    simp [colCount]
  rw [hb, hb]
  simp only [transposeRows, List.map_flatten, List.map_map, List.length_map, List.length_range,
    true_and]
  have h1 : ∀ c, (List.map Prod.fst ∘ fun c =>
      List.map (fun e => (e.1, e.2.2)) (inColumn c (taggedFrom 0 rs))) c =
      List.map (fun e => e.1) (inColumn c (taggedFrom 0 rs)) := by
    intro c
    simp [Function.comp, List.map_map]
  have h2 : ∀ c, (List.map Prod.snd ∘ fun c =>
      List.map (fun e => (e.1, e.2.2)) (inColumn c (taggedFrom 0 rs))) c =
      List.map (fun e => e.2.2) (inColumn c (taggedFrom 0 rs)) := by
    intro c
    simp [Function.comp, List.map_map]
  rw [funext h1, funext h2]

/-- The method `transpose` on a state given by rows. -/
theorem transpose_ofRows [Zero α] (C : Nat) (rs : List (List (Nat × α)))
    (hC : ColsBelow C rs) :
    transpose (ofRows C rs) = Except.ok (ofRows rs.length (transposeRows C rs)) := by
  have hcols : ∀ c ∈ rs.flatten.map Prod.fst, c < C := by
    intro c hc
    simp only [List.mem_map, List.mem_flatten] at hc
    obtain ⟨p, ⟨row, hrow, hp⟩, rfl⟩ := hc
    exact hC row hrow p hp
  have hcount : (rs.flatten.map Prod.fst).foldlM countStep (List.replicate C 0) =
      Except.ok ((List.range C).map (colCount rs)) := by
    have h0 : List.replicate C 0 = (List.range C).map (fun _ => 0) := by
      apply List.ext_getElem?
      intro i
      by_cases hi : i < C <;> simp [hi, List.getElem?_replicate]
    rw [h0, foldlM_countStep C _ hcols]
    congr 1
    apply List.map_congr_left
    intro c _
    rw [Nat.zero_add, count_column_indices]
  have hTlen : (transposeRows C rs).length = C := by simp [transposeRows]
  have hoffs : (List.range C).foldlM (offsetStep ((List.range C).map (colCount rs)))
      (List.replicate (C + 1) 0) = Except.ok (offsetsFrom 0 (transposeRows C rs)) := by
    have h := foldlM_offsetStep (transposeRows C rs) ((List.range C).map (colCount rs))
      (map_length_transposeRows C rs).symm C (by rw [hTlen])
    rw [hTlen, List.take_of_length_le (by rw [hTlen]), Nat.sub_self] at h
    simpa using h
  unfold transpose
  simp only [ofRows] at hcount ⊢
  rw [hcount, bind_ok_eq, hoffs, bind_ok_eq]
  have hscat := foldlM_scatterRow C rs hC rs.length (Nat.le_refl _)
  rw [scatterState_nil C rs hC, List.take_length] at hscat
  simp only [ofRows] at hscat
  rw [hscat, bind_ok_eq, scatterState_full C rs hC]
  rfl

/-! ### Every state with invariants 1 and 2 is given by its rows -/

theorem take_append_sliceOf {β : Type} (E : List β) (a b : Nat) (hab : a ≤ b) :
    E.take a ++ sliceOf E a b = E.take b := by
  unfold sliceOf
  have : b = a + (b - a) := by omega
  conv => rhs; rw [this, List.take_add]

theorem cut_at_offsets {β : Type} (E : List β) (o : List Nat) (R : Nat)
    (hlen : o.length = R + 1) (h0 : o[0]? = some 0) (hmono : o.Pairwise (fun a b => a ≤ b))
    (n : Nat) (hn : n ≤ R) (hE : o.getD R 0 ≤ E.length) :
    ((List.range n).map (fun r => sliceOf E (o.getD r 0) (o.getD (r + 1) 0))).flatten =
        E.take (o.getD n 0) ∧
      offsetsFrom 0 ((List.range n).map (fun r => sliceOf E (o.getD r 0) (o.getD (r + 1) 0))) =
        o.take (n + 1) := by
  have hle : ∀ i j, i ≤ j → j ≤ R → o.getD i 0 ≤ o.getD j 0 := by
    intro i j hij hj
    rcases Nat.eq_or_lt_of_le hij with h | h
    · rw [h]
    · have hi : i < o.length := by omega
      have hj2 : j < o.length := by omega
      rw [List.getD_eq_getElem _ _ hi, List.getD_eq_getElem _ _ hj2]
      exact List.pairwise_iff_getElem.mp hmono i j hi hj2 h
  induction n with
  | zero =>
    cases o with
    | nil => simp at hlen
    | cons a rest =>
      have : a = 0 := by simpa using h0
      subst this
      simp [offsetsFrom]
  | succ n ih =>
    obtain ⟨ih1, ih2⟩ := ih (Nat.le_of_lt hn)
    have hstep := hle n (n + 1) (Nat.le_succ n) hn
    have hbound : o.getD (n + 1) 0 ≤ E.length := Nat.le_trans (hle (n + 1) R hn (Nat.le_refl R)) hE
    rw [List.range_succ, List.map_append, List.flatten_append]
    simp only [List.map_cons, List.map_nil, List.flatten_cons, List.flatten_nil,
      List.append_nil]
    constructor
    · rw [ih1, take_append_sliceOf E _ _ hstep]
    · rw [offsetsFrom_concat, ih1, ih2, Nat.zero_add, ← List.length_append,
        take_append_sliceOf E _ _ hstep, List.length_take, Nat.min_eq_left hbound,
        take_succ_getElem o (n + 1) (by omega), List.getD_eq_getElem _ _ (by omega)]

theorem eq_ofRows_toRows (m : SparseMatrixCSR α) (h1 : Inv1 m) (h2 : Inv2 m) :
    m = ofRows m.cols (toRows m) := by
  obtain ⟨hlen, h0, hmono⟩ := h1
  obtain ⟨hR, hci, hval⟩ := h2
  have hRD : m.row_offsets.getD m.rows 0 = m.nnz := by
    rw [List.getD_eq_getElem?_getD, hR]; rfl
  have hzip : (m.column_indices.zip m.nnz_values).length = m.nnz := by
    rw [List.length_zip, ← hci, ← hval, Nat.min_self]
  obtain ⟨c1, c2⟩ := cut_at_offsets (m.column_indices.zip m.nnz_values) m.row_offsets m.rows
    hlen h0 hmono m.rows (Nat.le_refl _) (by rw [hRD, hzip])
  rw [hRD, List.take_of_length_le (by rw [hzip])] at c1
  rw [List.take_of_length_le (by rw [hlen])] at c2
  have hrows : (toRows m).length = m.rows := by simp [toRows]
  cases m with
  | mk rows cols nnz ro ci vals =>
    simp only [ofRows, toRows] at *
    rw [c1, c2]
    simp only [List.length_map, List.length_range, hzip, true_and,
      SparseMatrixCSR.mk.injEq]
    exact ⟨(List.map_fst_zip ci vals (by omega)).symm, (List.map_snd_zip ci vals (by omega)).symm⟩

theorem mem_sliceOf {β : Type} {E : List β} {lo hi : Nat} {x : β} (h : x ∈ sliceOf E lo hi) :
    x ∈ E :=
  List.mem_of_mem_drop (List.mem_of_mem_take h)

theorem colsBelow_toRows (m : SparseMatrixCSR α) (h3 : Inv3 m) : ColsBelow m.cols (toRows m) := by
  intro row hrow p hp
  simp only [toRows, List.mem_map, List.mem_range] at hrow
  obtain ⟨r, _, rfl⟩ := hrow
  exact h3 p.1 (List.of_mem_zip (mem_sliceOf hp)).1

theorem length_offsetsFrom_pos {β : Type} (rs : List (List β)) (b : Nat) :
    ∀ x ∈ offsetsFrom b rs, b ≤ x := by
  induction rs generalizing b with
  | nil => simp [offsetsFrom]
  | cons row rest ih =>
    intro x hx
    simp only [offsetsFrom, List.mem_cons] at hx
    rcases hx with rfl | hx
    · exact Nat.le_refl _
    · exact Nat.le_trans (Nat.le_add_right _ _) (ih _ x hx)

theorem pairwise_offsetsFrom {β : Type} (rs : List (List β)) (b : Nat) :
    (offsetsFrom b rs).Pairwise (fun a b => a ≤ b) := by
  induction rs generalizing b with
  | nil => simp [offsetsFrom]
  | cons row rest ih =>
    simp only [offsetsFrom, List.pairwise_cons]
    exact ⟨fun x hx => Nat.le_trans (Nat.le_add_right _ _) (length_offsetsFrom_pos rest _ x hx),
      ih _⟩

theorem inv1_ofRows (C : Nat) (rs : List (List (Nat × α))) : Inv1 (ofRows C rs) := by
  refine ⟨length_offsetsFrom rs 0, ?_, pairwise_offsetsFrom rs 0⟩
  simp only [ofRows]
  rw [getElem?_offsetsFrom rs 0 0 (Nat.zero_le _)]
  rfl

theorem inv2_ofRows (C : Nat) (rs : List (List (Nat × α))) : Inv2 (ofRows C rs) := by
  refine ⟨?_, by simp only [ofRows, List.length_map], by simp only [ofRows, List.length_map]⟩
  simp only [ofRows]
  rw [getElem?_offsetsFrom rs 0 rs.length (Nat.le_refl _), List.take_length, Nat.zero_add]

theorem inv3_ofRows (C : Nat) (rs : List (List (Nat × α))) (hC : ColsBelow C rs) :
    Inv3 (ofRows C rs) := by
  intro c hc
  simp only [ofRows, List.mem_map, List.mem_flatten] at hc
  obtain ⟨p, ⟨row, hrow, hp⟩, rfl⟩ := hc
  exact hC row hrow p hp

/-! ### Sums -/

theorem foldl_add_mul [CommRing α] (x : List α) (row : List (Nat × α)) (s : α) :
    row.foldl (fun s p => s + p.2 * x.getD p.1 0) s = s + rowSum x row := by
  unfold rowSum
  induction row generalizing s with
  | nil => simp
  | cons p rest ih =>
    rw [List.foldl_cons, List.foldl_cons, ih, ih (0 + _)]
    ring

theorem rowSum_append [CommRing α] (x : List α) (r1 r2 : List (Nat × α)) :
    rowSum x (r1 ++ r2) = rowSum x r1 + rowSum x r2 := by
  conv => lhs; unfold rowSum
  rw [List.foldl_append, foldl_add_mul]
  rfl

/-- The sum accumulated over the stored entries of a row is the full dot product. -/
theorem rowSum_sparseRow [CommRing α] [DecidableEq α] (f : Nat → α) (x : List α) (n : Nat) :
    rowSum x (sparseRow f n) = ∑ c in Finset.range n, f c * x.getD c 0 := by
  induction n with
  | zero => simp [sparseRow, rowSum]
  | succ n ih =>
    rw [sparseRow_succ, rowSum_append, ih, Finset.sum_range_succ]
    by_cases h : f n = 0
    · simp [h, rowSum]
    · simp [h, rowSum]

theorem sparseRow_colsBelow [Zero α] [DecidableEq α] (f : Nat → α) (n : Nat) :
    ∀ p ∈ sparseRow f n, p.1 < n := by
  intro p hp
  simp only [sparseRow, List.mem_map, List.mem_filter, List.mem_range] at hp
  obtain ⟨c, ⟨hc, _⟩, rfl⟩ := hp
  exact hc

theorem colsBelow_denseRows [Zero α] [DecidableEq α] (R C : Nat) (D : List (List α)) :
    ColsBelow C (denseRows R C D) := by
  intro row hrow
  simp only [denseRows, List.mem_map] at hrow
  obtain ⟨r, _, rfl⟩ := hrow
  exact sparseRow_colsBelow _ _

theorem new_row_offsets_length (r c : Nat) :
    (SparseMatrixCSR.new r c : SparseMatrixCSR α).row_offsets.length =
      (SparseMatrixCSR.new r c : SparseMatrixCSR α).rows + 1 := by
  simp [SparseMatrixCSR.new]

/-- Building a freshly constructed matrix from a dense matrix of its shape. -/
theorem build_new [Zero α] [DecidableEq α] (R C : Nat) (D : List (List α))
    (hD : IsDense R C D) :
    buildFromDense (SparseMatrixCSR.new R C) D = (Except.ok (), ofRows C (denseRows R C D)) := by
  rw [buildFromDense_eq _ _ (new_row_offsets_length R C)]
  exact if_pos hD

/-! ### The dense reference -/

theorem set_getElem_same {β : Type} (xs : List β) (i : Nat) (h : i < xs.length) :
    xs.set i xs[i] = xs := by
  apply List.ext_getElem?
  intro j
  rw [List.getElem?_set]
  by_cases hij : i = j
  · subst hij
    simp [h]
  · simp [hij]

theorem foldlM_dense_multiplyCell [CommRing α] (d : DenseMatrix α) (x : List α) (r : Nat)
    (hr : r < d.data.length) (result : List α) (hres : r < result.length)
    (n : Nat) (hn : n ≤ d.data[r].length) (hx : n ≤ x.length) :
    (List.range n).foldlM (DenseMatrix.multiplyCell d x r) result =
      Except.ok (result.set r
        (result[r] + ∑ c in Finset.range n, entry d.data r c * x.getD c 0)) := by
  induction n with
  | zero => simp [pure, Except.pure, set_getElem_same _ _ hres]
  | succ n ih =>
    have h1 : n < d.data[r].length := hn
    have h2 : n < x.length := hx
    rw [List.range_succ, List.foldlM_append, ih (Nat.le_of_lt h1) (Nat.le_of_lt h2)]
    simp only [bind_ok_eq, List.foldlM_cons, List.foldlM_nil, DenseMatrix.multiplyCell]
    rw [readAt_of_lt hr, bind_ok_eq, readAt_of_lt h1, bind_ok_eq, readAt_of_lt h2, bind_ok_eq,
      readAt_of_lt (by simpa using hres), bind_ok_eq, writeAt_of_lt _ (by simpa using hres)]
    simp only [bind_ok_eq, pure, Except.pure, List.getElem_set_self, List.set_set,
      Finset.sum_range_succ]
    rw [entry_eq (List.getElem?_eq_getElem hr) h1, List.getD_eq_getElem _ _ h2, add_assoc]

theorem foldlM_dense_multiplyRow [CommRing α] (R C : Nat) (D : List (List α)) (x : List α)
    (hD : IsDense R C D) (hx : x.length = C) (n : Nat) (hn : n ≤ R) :
    (List.range n).foldlM (DenseMatrix.multiplyRow ⟨D, R, C⟩ x) (List.replicate R 0) =
      Except.ok ((List.range n).map (rowDot D x C) ++ List.replicate (R - n) 0) := by
  induction n with
  | zero => simp [pure, Except.pure]
  | succ n ih =>
    have hlt : n < D.length := by rw [hD.1]; exact hn
    have hrow : D[n].length = C := hD.2 _ (List.getElem_mem hlt)
    rw [List.range_succ, List.foldlM_append, ih (Nat.le_of_lt hn)]
    simp only [bind_ok_eq, List.foldlM_cons, List.foldlM_nil, DenseMatrix.multiplyRow]
    have hres : n < ((List.range n).map (rowDot D x C) ++ List.replicate (R - n) (0 : α)).length := by
      simp; omega
    rw [foldlM_dense_multiplyCell ⟨D, R, C⟩ x n hlt _ hres C (by simp [hrow]) (by omega)]
    simp only [bind_ok_eq, pure, Except.pure, List.map_append, List.map_cons, List.map_nil]
    congr 1
    have hlen : ((List.range n).map (rowDot D x C)).length = n := by simp
    have hrep : List.replicate (R - n) (0 : α) = 0 :: List.replicate (R - (n + 1)) 0 := by
      rw [← List.replicate_succ]; congr 1; omega
    rw [List.set_append_right _ _ (by omega), hlen, Nat.sub_self]
    simp only [hrep, List.set_cons_zero, List.append_assoc, List.singleton_append]
    congr 2
    rw [List.getElem_append_right (by omega)]
    simp [hlen, rowDot]

theorem map_rowSum_denseRows [CommRing α] [DecidableEq α] (R C : Nat) (D : List (List α))
    (x : List α) : (denseRows R C D).map (rowSum x) = (List.range R).map (rowDot D x C) := by
  unfold denseRows
  rw [List.map_map]
  apply List.map_congr_left
  intro r _
  exact rowSum_sparseRow _ _ _

/-! ### The rows of the transpose of a built matrix -/

theorem taggedFrom_map_range (g : Nat → List (Nat × α)) (R : Nat) :
    taggedFrom 0 ((List.range R).map g) =
      ((List.range R).map (fun r => (g r).map (fun p => (r, p)))).flatten := by
  induction R with
  | zero => rfl
  | succ R ih =>
    rw [List.range_succ, List.map_append, taggedFrom_append, ih, List.map_append,
      List.flatten_append]
    simp [taggedFrom]

theorem map_filter_eq_flatten {β γ : Type} (p : β → Bool) (g : β → γ) (l : List β) :
    (l.filter p).map g = (l.map (fun x => if p x then [g x] else [])).flatten := by
  induction l with
  | nil => rfl
  | cons a rest ih =>
    by_cases h : p a = true
    · simp [List.filter_cons, h, ih]
    · simp [List.filter_cons, h, ih]

theorem filter_range_eq (C c : Nat) (hc : c < C) :
    (List.range C).filter (fun i => decide (i = c)) = [c] := by
  induction C with
  | zero => omega
  | succ C ih =>
    rw [List.range_succ, List.filter_append]
    by_cases h : c = C
    · subst h
      have : (List.range c).filter (fun i => decide (i = c)) = [] := by
        rw [List.filter_eq_nil_iff]
        intro a ha
        have := List.mem_range.mp ha
        simp; omega
      rw [this]
      simp
    · rw [ih (by omega)]
      have : ¬ C = c := fun h2 => h h2.symm
      simp [this]

theorem inColumn_sparseRow [Zero α] [DecidableEq α] (f : Nat → α) (C c r : Nat) (hc : c < C) :
    (inColumn c ((sparseRow f C).map (fun p => (r, p)))).map (fun e => (e.1, e.2.2)) =
      if decide (f c ≠ 0) = true then [(r, f c)] else [] := by
  unfold inColumn sparseRow
  rw [List.map_map, List.filter_map, List.map_map, List.filter_filter]
  have : (List.range C).filter
      (fun a => ((fun e : Nat × (Nat × α) => decide (e.2.1 = c)) ∘
        ((fun p : Nat × α => (r, p)) ∘ fun c => (c, f c))) a && decide (f a ≠ 0)) =
      (((List.range C).filter (fun i => decide (i = c))).filter (fun a => decide (f a ≠ 0))) := by
    rw [List.filter_filter]
    apply List.filter_congr
    intro a _
    simp [Bool.and_comm]
  rw [this, filter_range_eq C c hc]
  by_cases h : f c = 0 <;> simp [h]

theorem transposeRows_rowsOfFn [Zero α] [DecidableEq α] (f : Nat → Nat → α) (R C : Nat) :
    transposeRows C ((List.range R).map (fun r => sparseRow (f r) C)) =
      (List.range C).map (fun c => sparseRow (fun r => f r c) R) := by
  unfold transposeRows
  apply List.map_congr_left
  intro c hc
  have hc2 : c < C := List.mem_range.mp hc
  rw [taggedFrom_map_range]
  unfold inColumn
  rw [List.filter_flatten, List.map_flatten, List.map_map, List.map_map]
  conv => rhs; unfold sparseRow
  rw [map_filter_eq_flatten]
  congr 1
  apply List.map_congr_left
  intro r _
  exact inColumn_sparseRow (f r) C c r hc2

theorem sparseRow_congr [Zero α] [DecidableEq α] (f g : Nat → α) (n : Nat)
    (h : ∀ c, c < n → f c = g c) : sparseRow f n = sparseRow g n := by
  induction n with
  | zero => rfl
  | succ n ih =>
    rw [sparseRow_succ, sparseRow_succ, ih (fun c hc => h c (by omega)), h n (by omega)]

theorem entry_denseTranspose [Zero α] (R C : Nat) (D : List (List α)) (c r : Nat)
    (hc : c < C) (hr : r < R) : entry (denseTranspose R C D) c r = entry D r c := by
  simp [entry, denseTranspose, List.getD_eq_getElem?_getD, List.getElem?_map,
    List.getElem?_range hc, List.getElem?_range hr]

theorem isDense_denseTranspose [Zero α] (R C : Nat) (D : List (List α)) :
    IsDense C R (denseTranspose R C D) := by
  constructor
  · simp [denseTranspose]
  · intro row hrow
    simp only [denseTranspose, List.mem_map] at hrow
    obtain ⟨c, _, rfl⟩ := hrow
    simp

/-- The rows of the transpose of the matrix built from `D` are the rows built from the dense
transpose of `D`. -/
theorem transposeRows_denseRows [Zero α] [DecidableEq α] (R C : Nat) (D : List (List α)) :
    transposeRows C (denseRows R C D) = denseRows C R (denseTranspose R C D) := by
  unfold denseRows
  rw [transposeRows_rowsOfFn (entry D) R C]
  apply List.map_congr_left
  intro c hc
  apply sparseRow_congr
  intro r hr
  exact (entry_denseTranspose R C D c r (List.mem_range.mp hc) hr).symm

theorem length_denseRows [Zero α] [DecidableEq α] (R C : Nat) (D : List (List α)) :
    (denseRows R C D).length = R := by
  simp [denseRows]


theorem lengthSparseRow [Zero α] [DecidableEq α] (f : Nat → α) (n : Nat) :
    (sparseRow f n).length = ∑ c in Finset.range n, if f c ≠ 0 then 1 else 0 := by
  induction n with
  | zero => simp [sparseRow]
  | succ n ih =>
    rw [sparseRow_succ, List.length_append, ih, Finset.sum_range_succ]
    by_cases h : f n = 0 <;> simp [h]

theorem length_flatten_denseRows [Zero α] [DecidableEq α] (R C : Nat) (D : List (List α)) :
    (denseRows R C D).flatten.length =
      ∑ r in Finset.range R, ∑ c in Finset.range C, if entry D r c ≠ 0 then 1 else 0 := by
  induction R with
  | zero => simp [denseRows]
  | succ R ih =>
    have hsucc : denseRows (R + 1) C D = denseRows R C D ++ [sparseRow (entry D R) C] := by
      simp [denseRows, List.range_succ]
    rw [hsucc, List.flatten_append, List.length_append, ih, Finset.sum_range_succ]
    simp [lengthSparseRow]

/-! ### Invariants of the reachable states -/

theorem taggedFrom_tag_bounds (rs : List (List (Nat × α))) (r0 : Nat) :
    ∀ e ∈ taggedFrom r0 rs, r0 ≤ e.1 ∧ e.1 < r0 + rs.length := by
  induction rs generalizing r0 with
  | nil => simp [taggedFrom]
  | cons row rest ih =>
    intro e he
    simp only [taggedFrom, List.mem_append, List.mem_map] at he
    rcases he with ⟨p, _, rfl⟩ | he
    · simp
    · have := ih (r0 + 1) e he
      simp only [List.length_cons]
      omega

theorem mem_inColumn {c : Nat} {P : List (Nat × (Nat × α))} {e : Nat × (Nat × α)}
    (h : e ∈ inColumn c P) : e ∈ P ∧ e.2.1 = c := by
  simpa [inColumn] using h

theorem colsBelow_transposeRows (C : Nat) (rs : List (List (Nat × α))) :
    ColsBelow rs.length (transposeRows C rs) := by
  intro row hrow p hp
  simp only [transposeRows, List.mem_map] at hrow
  obtain ⟨c, _, rfl⟩ := hrow
  simp only [List.mem_map] at hp
  obtain ⟨e, he, rfl⟩ := hp
  have := (taggedFrom_tag_bounds rs 0 e (mem_inColumn he).1).2
  simpa using this

theorem inv_new (r c : Nat) :
    Inv1 (SparseMatrixCSR.new r c : SparseMatrixCSR α) ∧
      Inv2 (SparseMatrixCSR.new r c : SparseMatrixCSR α) ∧
      Inv3 (SparseMatrixCSR.new r c : SparseMatrixCSR α) := by
  refine ⟨⟨by simp [SparseMatrixCSR.new], by simp [SparseMatrixCSR.new], ?_⟩,
    ⟨by simp [SparseMatrixCSR.new], rfl, rfl⟩, ?_⟩
  · simp only [SparseMatrixCSR.new]
    rw [List.pairwise_replicate]
    right
    exact Nat.le_refl 0
  · intro x hx
    simp [SparseMatrixCSR.new] at hx

/-- The method `transpose` on a state with invariants 1 to 3. -/
theorem transpose_eq [Zero α] (m : SparseMatrixCSR α) (h1 : Inv1 m) (h2 : Inv2 m)
    (h3 : Inv3 m) :
    transpose m = Except.ok (ofRows m.rows (transposeRows m.cols (toRows m))) := by
  have h := transpose_ofRows m.cols (toRows m) (colsBelow_toRows m h3)
  rw [← eq_ofRows_toRows m h1 h2] at h
  rw [h]
  simp [toRows]

/-- The method `multiply` on a state with invariants 1 to 3. -/
theorem multiply_eq [Zero α] [Add α] [Mul α] (m : SparseMatrixCSR α) (h1 : Inv1 m)
    (h2 : Inv2 m) (h3 : Inv3 m) (v : List α) (hv : v.length = m.cols) :
    multiply m v = Except.ok ((toRows m).map (rowSum v)) := by
  have h := multiply_ofRows m.cols (toRows m) v hv (colsBelow_toRows m h3)
  rw [← eq_ofRows_toRows m h1 h2] at h
  exact h

theorem reachable_inv [Zero α] [DecidableEq α] (m : SparseMatrixCSR α) (hm : Reachable m) :
    Inv1 m ∧ Inv2 m ∧ Inv3 m := by
  induction hm with
  | constructed r c => exact inv_new r c
  | built m dense _ ih =>
    rw [buildFromDense_eq m dense ih.1.1]
    by_cases hD : IsDense m.rows m.cols dense
    · rw [if_pos hD]
      exact ⟨inv1_ofRows _ _, inv2_ofRows _ _, inv3_ofRows _ _ (colsBelow_denseRows _ _ _)⟩
    · rw [if_neg hD]
      exact ih
  | transposed m t _ ht ih =>
    rw [transpose_eq m ih.1 ih.2.1 ih.2.2] at ht
    have ht2 : t = ofRows m.rows (transposeRows m.cols (toRows m)) := by
      injection ht with ht
      exact ht.symm
    rw [ht2]
    refine ⟨inv1_ofRows _ _, inv2_ofRows _ _, inv3_ofRows _ _ ?_⟩
    have := colsBelow_transposeRows m.cols (toRows m)
    simpa [toRows] using this


/-! ### The values of the transpose -/

theorem flatten_transposeRows (C : Nat) (rs : List (List (Nat × α))) :
    (transposeRows C rs).flatten =
      (((List.range C).map (fun c => inColumn c (taggedFrom 0 rs))).flatten).map
        (fun e => (e.1, e.2.2)) := by
  unfold transposeRows
  rw [List.map_flatten, List.map_map]
  rfl

theorem values_transposeRows_perm (C : Nat) (rs : List (List (Nat × α)))
    (hC : ColsBelow C rs) :
    List.Perm ((transposeRows C rs).flatten.map Prod.snd) (rs.flatten.map Prod.snd) := by
  have h := flatten_inColumn_perm (taggedFrom 0 rs) C
  rw [filter_cols_below rs C 0 hC] at h
  have h2 := h.map (fun e : Nat × (Nat × α) => e.2.2)
  rw [flatten_transposeRows, List.map_map]
  have h3 : (taggedFrom 0 rs).map (fun e : Nat × (Nat × α) => e.2.2) =
      rs.flatten.map Prod.snd := by
    rw [← map_snd_taggedFrom rs 0, List.map_map]
    rfl
  rw [← h3]
  exact h2


/-! ### Linearity of the row sums -/

theorem getD_vecAdd [CommRing α] (x y : List α) (h : x.length = y.length) (c : Nat) :
    (vecAdd x y).getD c 0 = x.getD c 0 + y.getD c 0 := by
  induction x generalizing y c with
  | nil =>
    cases y with
    | nil => simp [vecAdd]
    | cons b ys => simp at h
  | cons a xs ih =>
    cases y with
    | nil => simp at h
    | cons b ys =>
      cases c with
      | zero => simp [vecAdd]
      | succ c =>
        have := ih ys (by simpa using h) c
        simpa [vecAdd] using this

theorem rowSum_vecAdd [CommRing α] (x y : List α) (h : x.length = y.length)
    (row : List (Nat × α)) : rowSum (vecAdd x y) row = rowSum x row + rowSum y row := by
  induction row with
  | nil => simp [rowSum]
  | cons p rest ih =>
    have hc : ∀ (v : List α), rowSum v (p :: rest) = p.2 * v.getD p.1 0 + rowSum v rest := by
      intro v
      conv => lhs; unfold rowSum
      rw [List.foldl_cons, foldl_add_mul, zero_add]
    rw [hc, hc, hc, ih, getD_vecAdd x y h]
    ring

theorem vecAdd_map {β : Type} [Add α] (f g : β → α) (l : List β) :
    vecAdd (l.map f) (l.map g) = l.map (fun b => f b + g b) := by
  induction l with
  | nil => rfl
  | cons a rest ih =>
    simp only [vecAdd, List.map_cons, List.zipWith_cons_cons] at ih ⊢
    rw [ih]


/-! ### Dot products -/

theorem zipWith_map_same {β γ : Type} (op : γ → γ → γ) (f g : β → γ) (l : List β) :
    List.zipWith op (l.map f) (l.map g) = l.map (fun b => op (f b) (g b)) := by
  induction l with
  | nil => rfl
  | cons a rest ih => simp only [List.map_cons, List.zipWith_cons_cons, ih]

theorem eq_map_range_getD {β : Type} (y : List β) (d : β) (n : Nat) (h : y.length = n) :
    y = (List.range n).map (fun i => y.getD i d) := by
  apply List.ext_getElem?
  intro i
  by_cases hi : i < n
  · have : i < y.length := by omega
    rw [List.getElem?_map, List.getElem?_range hi]
    simp [List.getD_eq_getElem?_getD, List.getElem?_eq_getElem this]
  · rw [List.getElem?_eq_none (by omega), List.getElem?_eq_none (by simp; omega)]

theorem foldl_add_map_range [CommRing α] (k : Nat → α) (n : Nat) :
    ((List.range n).map k).foldl (fun s t => s + t) 0 = ∑ i in Finset.range n, k i := by
  induction n with
  | zero => simp
  | succ n ih =>
    rw [List.range_succ, List.map_append, List.foldl_append, ih, Finset.sum_range_succ]
    simp

theorem dot_map_range [CommRing α] (g : Nat → α) (y : List α) (n : Nat) (h : y.length = n) :
    dot ((List.range n).map g) y = ∑ i in Finset.range n, g i * y.getD i 0 := by
  unfold dot
  conv => lhs; rw [eq_map_range_getD y 0 n h]
  rw [zipWith_map_same, foldl_add_map_range]


/-! ### Transposing twice -/

theorem filter_tag_lt (rs : List (List (Nat × α))) (r0 r : Nat) (h : r < r0) :
    (taggedFrom r0 rs).filter (fun e => decide (e.1 = r)) = [] := by
  rw [List.filter_eq_nil_iff]
  intro e he
  have := (taggedFrom_tag_bounds rs r0 e he).1
  simp; omega

theorem filter_tag (rs : List (List (Nat × α))) (r0 r : Nat) (h : r0 ≤ r) :
    (taggedFrom r0 rs).filter (fun e => decide (e.1 = r)) =
      (rs.getD (r - r0) []).map (fun p => (r, p)) := by
  induction rs generalizing r0 with
  | nil => simp [taggedFrom]
  | cons row rest ih =>
    rw [taggedFrom, List.filter_append]
    by_cases hr : r = r0
    · subst hr
      rw [filter_tag_lt rest (r + 1) r (by omega), List.append_nil, Nat.sub_self]
      rw [List.filter_eq_self.mpr]
      · rfl
      · intro e he
        simp only [List.mem_map] at he
        obtain ⟨p, _, rfl⟩ := he
        simp
    · have h2 : r0 + 1 ≤ r := by omega
      rw [ih (r0 + 1) h2]
      have h3 : r - r0 = (r - (r0 + 1)) + 1 := by omega
      have h4 : (row.map (fun p => (r0, p))).filter (fun e => decide (e.1 = r)) = [] := by
        rw [List.filter_eq_nil_iff]
        intro e he
        simp only [List.mem_map] at he
        obtain ⟨p, _, rfl⟩ := he
        simp; omega
      rw [h4, h3]
      simp

theorem filter_lt_succ_sorted (l : List (Nat × α)) (hl : (l.map Prod.fst).Pairwise (fun a b => a < b))
    (C : Nat) :
    l.filter (fun p => decide (p.1 < C + 1)) =
      l.filter (fun p => decide (p.1 < C)) ++ l.filter (fun p => decide (p.1 = C)) := by
  induction l with
  | nil => rfl
  | cons p rest ih =>
    simp only [List.map_cons, List.pairwise_cons] at hl
    obtain ⟨hp, hrest⟩ := hl
    have ih2 := ih hrest
    by_cases h1 : p.1 < C
    · have h2 : p.1 < C + 1 := by omega
      have h3 : ¬ p.1 = C := by omega
      simp [List.filter_cons, h1, h2, h3, ih2]
    · have hnil : rest.filter (fun p => decide (p.1 < C)) = [] := by
        rw [List.filter_eq_nil_iff]
        intro q hq
        have := hp q.1 (List.mem_map_of_mem _ hq)
        simp; omega
      by_cases h3 : p.1 = C
      · have h2 : p.1 < C + 1 := by omega
        simp [List.filter_cons, h1, h2, h3, ih2, hnil]
      · have h2 : ¬ p.1 < C + 1 := by omega
        simp [List.filter_cons, h1, h2, h3, ih2, hnil]

theorem flatten_filter_col_sorted (l : List (Nat × α))
    (hl : (l.map Prod.fst).Pairwise (fun a b => a < b)) (C : Nat) :
    ((List.range C).map (fun c => l.filter (fun p => decide (p.1 = c)))).flatten =
      l.filter (fun p => decide (p.1 < C)) := by
  induction C with
  | zero => simp
  | succ C ih =>
    rw [List.range_succ, List.map_append, List.flatten_append, ih,
      filter_lt_succ_sorted l hl C]
    simp

theorem transpose_piece (rs : List (List (Nat × α))) (r c : Nat) :
    (inColumn r (((inColumn c (taggedFrom 0 rs)).map (fun e => (e.1, e.2.2))).map
        (fun p => (c, p)))).map (fun e => (e.1, e.2.2)) =
      (rs.getD r []).filter (fun p => decide (p.1 = c)) := by
  have h1 : (inColumn r (((inColumn c (taggedFrom 0 rs)).map (fun e => (e.1, e.2.2))).map
        (fun p => (c, p)))).map (fun e => (e.1, e.2.2)) =
      ((((taggedFrom 0 rs).filter (fun e => decide (e.1 = r))).filter
        (fun e => decide (e.2.1 = c))).map (fun e => (c, e.2.2))) := by
    unfold inColumn
    rw [List.map_map, List.filter_map, List.map_map, List.filter_filter, List.filter_filter]
    congr 1
    apply List.filter_congr
    intro e _
    simp [Bool.and_comm]
  rw [h1, filter_tag rs 0 r (Nat.zero_le _), Nat.sub_zero, List.filter_map, List.map_map]
  have h2 : ∀ (l : List (Nat × α)),
      (l.filter ((fun e : Nat × (Nat × α) => decide (e.2.1 = c)) ∘ fun p => (r, p))).map
        ((fun e : Nat × (Nat × α) => (c, e.2.2)) ∘ fun p => (r, p)) =
      l.filter (fun p => decide (p.1 = c)) := by
    intro l
    induction l with
    | nil => rfl
    | cons p rest ih =>
      by_cases hp : p.1 = c
      · have : (c, p.2) = p := by rw [← hp]
        simp [List.filter_cons, hp, ih, this]
      · simp [List.filter_cons, hp, ih]
  exact h2 _

theorem inColumn_flatten (r : Nat) (L : List (List (Nat × (Nat × α)))) :
    inColumn r L.flatten = (L.map (inColumn r)).flatten := by
  unfold inColumn
  rw [List.filter_flatten]

/-- Transposing the rows twice gives back rows whose columns are strictly increasing. -/
theorem transposeRows_transposeRows (C : Nat) (rs : List (List (Nat × α)))
    (hC : ColsBelow C rs)
    (hS : ∀ row ∈ rs, (row.map Prod.fst).Pairwise (fun a b => a < b)) :
    transposeRows rs.length (transposeRows C rs) = rs := by
  have hrow : ∀ r, r < rs.length →
      (inColumn r (taggedFrom 0 (transposeRows C rs))).map (fun e => (e.1, e.2.2)) =
        rs.getD r [] := by
    intro r hr
    have hmem : rs.getD r [] ∈ rs := by
      rw [List.getD_eq_getElem _ _ hr]
      exact List.getElem_mem hr
    have hT : transposeRows C rs = (List.range C).map
        (fun c => (inColumn c (taggedFrom 0 rs)).map (fun e => (e.1, e.2.2))) := rfl
    rw [hT, taggedFrom_map_range, inColumn_flatten, List.map_flatten, List.map_map,
      List.map_map]
    have hpieces : (List.range C).map
        ((List.map (fun e : Nat × (Nat × α) => (e.1, e.2.2)) ∘ inColumn r) ∘
          fun c => ((inColumn c (taggedFrom 0 rs)).map (fun e => (e.1, e.2.2))).map
            (fun p => (c, p))) =
        (List.range C).map (fun c => (rs.getD r []).filter (fun p => decide (p.1 = c))) :=
      List.map_congr_left (fun c _ => transpose_piece rs r c)
    rw [hpieces, flatten_filter_col_sorted _ (hS _ hmem) C, List.filter_eq_self]
    intro p hp
    simpa using hC _ hmem p hp
  have hTT : transposeRows rs.length (transposeRows C rs) = (List.range rs.length).map
      (fun r => (inColumn r (taggedFrom 0 (transposeRows C rs))).map (fun e => (e.1, e.2.2))) :=
    rfl
  rw [hTT]
  apply List.ext_getElem?
  intro r
  by_cases hr : r < rs.length
  · rw [List.getElem?_map, List.getElem?_range hr, List.getElem?_eq_getElem hr]
    simp only [Option.map_some']
    rw [hrow r hr, List.getD_eq_getElem _ _ hr]
  · rw [List.getElem?_eq_none (by simp; omega), List.getElem?_eq_none (by omega)]

theorem map_fst_sliceOf_zip {β γ : Type} (xs : List β) (ys : List γ) (h : xs.length = ys.length)
    (lo hi : Nat) : (sliceOf (xs.zip ys) lo hi).map Prod.fst = sliceOf xs lo hi := by
  unfold sliceOf
  rw [List.map_take, List.map_drop, List.map_fst_zip xs ys (by omega)]

theorem sorted_toRows (m : SparseMatrixCSR α) (h2 : Inv2 m) (h4 : Inv4 m) :
    ∀ row ∈ toRows m, (row.map Prod.fst).Pairwise (fun a b => a < b) := by
  intro row hrow
  simp only [toRows, List.mem_map, List.mem_range] at hrow
  obtain ⟨r, hr, rfl⟩ := hrow
  rw [map_fst_sliceOf_zip _ _ (by rw [← h2.2.1, ← h2.2.2])]
  exact h4 r hr

theorem denseRows_congr [Zero α] [DecidableEq α] (R C : Nat) (D E : List (List α))
    (h : ∀ r c, r < R → c < C → entry D r c = entry E r c) :
    denseRows R C D = denseRows R C E := by
  unfold denseRows
  apply List.map_congr_left
  intro r hr
  exact sparseRow_congr _ _ _ (fun c hc => h r c (List.mem_range.mp hr) hc)

theorem denseRows_denseTranspose_twice [Zero α] [DecidableEq α] (R C : Nat)
    (D : List (List α)) :
    denseRows R C (denseTranspose C R (denseTranspose R C D)) = denseRows R C D := by
  apply denseRows_congr
  intro r c hr hc
  rw [entry_denseTranspose C R _ r c hr hc, entry_denseTranspose R C D c r hc hr]


/-! ### The rows of a state given by rows -/

theorem zip_map_fst_snd {β γ : Type} (E : List (β × γ)) :
    (E.map Prod.fst).zip (E.map Prod.snd) = E := by
  induction E with
  | nil => rfl
  | cons p rest ih => simp [ih]

theorem getD_offsetsFrom {β : Type} (rs : List (List β)) (r : Nat) (hr : r ≤ rs.length) :
    (offsetsFrom 0 rs).getD r 0 = (rs.take r).flatten.length := by
  rw [List.getD_eq_getElem?_getD, getElem?_offsetsFrom rs 0 r hr, Nat.zero_add]
  rfl

theorem sliceOf_flatten {β : Type} (rs : List (List β)) (r : Nat) (hr : r < rs.length) :
    sliceOf rs.flatten ((offsetsFrom 0 rs).getD r 0) ((offsetsFrom 0 rs).getD (r + 1) 0) =
      rs[r] := by
  rw [getD_offsetsFrom rs r (Nat.le_of_lt hr), getD_offsetsFrom rs (r + 1) hr]
  unfold sliceOf
  rw [flatten_take_succ rs r hr, List.length_append, Nat.add_sub_cancel_left,
    segment_flatten rs r hr]

theorem toRows_ofRows (C : Nat) (rs : List (List (Nat × α))) : toRows (ofRows C rs) = rs := by
  unfold toRows
  simp only [ofRows]
  rw [zip_map_fst_snd]
  apply List.ext_getElem?
  intro r
  by_cases hr : r < rs.length
  · rw [List.getElem?_map, List.getElem?_range hr, List.getElem?_eq_getElem hr]
    simp only [Option.map_some']
    rw [sliceOf_flatten rs r hr]
  · rw [List.getElem?_eq_none (by simp; omega), List.getElem?_eq_none (by omega)]

/-! ### The identity matrix -/

theorem isDense_denseIdentity [Zero α] [One α] (n : Nat) :
    IsDense n n (denseIdentity n : List (List α)) := by
  constructor
  · simp [denseIdentity]
  · intro row hrow
    simp only [denseIdentity, List.mem_map] at hrow
    obtain ⟨r, _, rfl⟩ := hrow
    simp

theorem entry_denseIdentity [Zero α] [One α] (n r c : Nat) (hr : r < n) (hc : c < n) :
    entry (denseIdentity n : List (List α)) r c = if r = c then 1 else 0 := by
  simp [entry, denseIdentity, List.getD_eq_getElem?_getD, List.getElem?_map,
    List.getElem?_range hr, List.getElem?_range hc]

theorem rowDot_denseIdentity [CommRing α] (n : Nat) (x : List α) (r : Nat) (hr : r < n) :
    rowDot (denseIdentity n) x n r = x.getD r 0 := by
  unfold rowDot
  rw [Finset.sum_eq_single r]
  · rw [entry_denseIdentity n r r hr hr, if_pos rfl, one_mul]
  · intro c hc hcr
    rw [entry_denseIdentity n r c hr (Finset.mem_range.mp hc), if_neg (fun h => hcr h.symm),
      zero_mul]
  · intro h
    exact absurd (Finset.mem_range.mpr hr) h

/-! ### Invariants 4 and 5 -/

theorem inv4_ofRows (C : Nat) (rs : List (List (Nat × α)))
    (hS : ∀ row ∈ rs, (row.map Prod.fst).Pairwise (fun a b => a < b)) : Inv4 (ofRows C rs) := by
  intro r hr
  have hr2 : r < rs.length := hr
  have h := map_fst_sliceOf_zip ((ofRows C rs).column_indices) ((ofRows C rs).nnz_values)
    (by simp only [ofRows, List.length_map])
    ((ofRows C rs).row_offsets.getD r 0) ((ofRows C rs).row_offsets.getD (r + 1) 0)
  rw [← h]
  have h2 : sliceOf ((ofRows C rs).column_indices.zip (ofRows C rs).nnz_values)
      ((ofRows C rs).row_offsets.getD r 0) ((ofRows C rs).row_offsets.getD (r + 1) 0) =
      rs[r] := by
    simp only [ofRows]
    rw [zip_map_fst_snd, sliceOf_flatten rs r hr2]
  rw [h2]
  exact hS _ (List.getElem_mem hr2)

theorem inv5_ofRows [Zero α] (C : Nat) (rs : List (List (Nat × α)))
    (hZ : ∀ row ∈ rs, ∀ p ∈ row, p.2 ≠ 0) : Inv5 (ofRows C rs) := by
  intro a ha
  simp only [ofRows, List.mem_map, List.mem_flatten] at ha
  obtain ⟨p, ⟨row, hrow, hp⟩, rfl⟩ := ha
  exact hZ row hrow p hp

theorem nonzero_toRows [Zero α] (m : SparseMatrixCSR α) (h5 : Inv5 m) :
    ∀ row ∈ toRows m, ∀ p ∈ row, p.2 ≠ 0 := by
  intro row hrow p hp
  simp only [toRows, List.mem_map, List.mem_range] at hrow
  obtain ⟨r, _, rfl⟩ := hrow
  exact h5 p.2 (List.of_mem_zip (mem_sliceOf hp)).2

theorem sparseRow_sorted [Zero α] [DecidableEq α] (f : Nat → α) (n : Nat) :
    ((sparseRow f n).map Prod.fst).Pairwise (fun a b => a < b) := by
  unfold sparseRow
  rw [List.map_map]
  have : (Prod.fst ∘ fun c => (c, f c)) = id := rfl
  rw [this, List.map_id]
  exact List.Pairwise.sublist (List.filter_sublist _) (List.pairwise_lt_range n)

theorem sparseRow_nonzero [Zero α] [DecidableEq α] (f : Nat → α) (n : Nat) :
    ∀ p ∈ sparseRow f n, p.2 ≠ 0 := by
  intro p hp
  simp only [sparseRow, List.mem_map, List.mem_filter, List.mem_range] at hp
  obtain ⟨c, ⟨_, hc⟩, rfl⟩ := hp
  simpa using hc

theorem sorted_denseRows [Zero α] [DecidableEq α] (R C : Nat) (D : List (List α)) :
    ∀ row ∈ denseRows R C D, (row.map Prod.fst).Pairwise (fun a b => a < b) := by
  intro row hrow
  simp only [denseRows, List.mem_map] at hrow
  obtain ⟨r, _, rfl⟩ := hrow
  exact sparseRow_sorted _ _

theorem nonzero_denseRows [Zero α] [DecidableEq α] (R C : Nat) (D : List (List α)) :
    ∀ row ∈ denseRows R C D, ∀ p ∈ row, p.2 ≠ 0 := by
  intro row hrow
  simp only [denseRows, List.mem_map] at hrow
  obtain ⟨r, _, rfl⟩ := hrow
  exact sparseRow_nonzero _ _

/-- In a row with strictly increasing columns, a column occurs at most once. -/
theorem filter_col_length_le_one (row : List (Nat × α))
    (hS : (row.map Prod.fst).Pairwise (fun a b => a < b)) (c : Nat) :
    (row.filter (fun p => decide (p.1 = c))).length ≤ 1 := by
  induction row with
  | nil => simp
  | cons p rest ih =>
    simp only [List.map_cons, List.pairwise_cons] at hS
    obtain ⟨hp, hrest⟩ := hS
    by_cases h : p.1 = c
    · have hnil : rest.filter (fun p => decide (p.1 = c)) = [] := by
        rw [List.filter_eq_nil_iff]
        intro q hq
        have := hp q.1 (List.mem_map_of_mem _ hq)
        simp; omega
      simp [List.filter_cons, h, hnil]
    · simpa [List.filter_cons, h] using ih hrest

theorem inColumn_taggedFrom_sorted (rs : List (List (Nat × α))) (r0 c : Nat)
    (hS : ∀ row ∈ rs, (row.map Prod.fst).Pairwise (fun a b => a < b)) :
    ((inColumn c (taggedFrom r0 rs)).map Prod.fst).Pairwise (fun a b => a < b) := by
  induction rs generalizing r0 with
  | nil => simp [taggedFrom, inColumn]
  | cons row rest ih =>
    rw [taggedFrom, inColumn_append, List.map_append, List.pairwise_append]
    refine ⟨?_, ih (r0 + 1) (fun row hrow => hS row (List.mem_cons_of_mem _ hrow)), ?_⟩
    · have hlen : ((inColumn c (row.map (fun p => (r0, p)))).map Prod.fst).length ≤ 1 := by
        have := filter_col_length_le_one row (hS row (List.mem_cons_self _ _)) c
        unfold inColumn
        rw [List.length_map, List.filter_map, List.length_map]
        exact this
      match hl : (inColumn c (row.map (fun p => (r0, p)))).map Prod.fst, hlen with
      | [], _ => exact List.Pairwise.nil
      | [a], _ => exact List.pairwise_singleton _ _
      | a :: b :: l, h => simp at h
    · intro a ha b hb
      simp only [List.mem_map] at ha hb
      obtain ⟨e, he, rfl⟩ := ha
      obtain ⟨e2, he2, rfl⟩ := hb
      have h1 := (mem_inColumn he).1
      simp only [List.mem_map] at h1
      obtain ⟨p, _, rfl⟩ := h1
      have h2 := (taggedFrom_tag_bounds rest (r0 + 1) e2 (mem_inColumn he2).1).1
      simp only
      omega

theorem sorted_transposeRows (C : Nat) (rs : List (List (Nat × α)))
    (hS : ∀ row ∈ rs, (row.map Prod.fst).Pairwise (fun a b => a < b)) :
    ∀ row ∈ transposeRows C rs, (row.map Prod.fst).Pairwise (fun a b => a < b) := by
  intro row hrow
  simp only [transposeRows, List.mem_map] at hrow
  obtain ⟨c, _, rfl⟩ := hrow
  rw [List.map_map]
  exact inColumn_taggedFrom_sorted rs 0 c hS

theorem mem_taggedFrom (rs : List (List (Nat × α))) (r0 : Nat) (e : Nat × (Nat × α))
    (he : e ∈ taggedFrom r0 rs) : ∃ row ∈ rs, e.2 ∈ row := by
  induction rs generalizing r0 with
  | nil => simp [taggedFrom] at he
  | cons row rest ih =>
    simp only [taggedFrom, List.mem_append, List.mem_map] at he
    rcases he with ⟨p, hp, rfl⟩ | he
    · exact ⟨row, List.mem_cons_self _ _, hp⟩
    · obtain ⟨row2, h1, h2⟩ := ih (r0 + 1) he
      exact ⟨row2, List.mem_cons_of_mem _ h1, h2⟩

theorem nonzero_transposeRows [Zero α] (C : Nat) (rs : List (List (Nat × α)))
    (hZ : ∀ row ∈ rs, ∀ p ∈ row, p.2 ≠ 0) :
    ∀ row ∈ transposeRows C rs, ∀ p ∈ row, p.2 ≠ 0 := by
  intro row hrow p hp
  simp only [transposeRows, List.mem_map] at hrow
  obtain ⟨c, _, rfl⟩ := hrow
  simp only [List.mem_map] at hp
  obtain ⟨e, he, rfl⟩ := hp
  obtain ⟨row2, h1, h2⟩ := mem_taggedFrom rs 0 e (mem_inColumn he).1
  exact hZ row2 h1 e.2 h2

/-! ### The layout of a built matrix -/

theorem take_denseRows [Zero α] [DecidableEq α] (R C : Nat) (D : List (List α)) (r : Nat)
    (hr : r ≤ R) : (denseRows R C D).take r = denseRows r C D := by
  unfold denseRows
  rw [← List.map_take, List.take_range, Nat.min_eq_left hr]

theorem mem_sparseRow [Zero α] [DecidableEq α] (f : Nat → α) (n : Nat) (p : Nat × α) :
    p ∈ sparseRow f n ↔ p.1 < n ∧ f p.1 ≠ 0 ∧ p.2 = f p.1 := by
  simp only [sparseRow, List.mem_map, List.mem_filter, List.mem_range]
  constructor
  · rintro ⟨c, ⟨hc, hf⟩, rfl⟩
    exact ⟨hc, by simpa using hf, rfl⟩
  · rintro ⟨h1, h2, h3⟩
    exact ⟨p.1, ⟨h1, by simpa using h2⟩, by rw [← h3]⟩

theorem sparseRow_inj [Zero α] [DecidableEq α] (f g : Nat → α) (n : Nat)
    (h : sparseRow f n = sparseRow g n) (c : Nat) (hc : c < n) : f c = g c := by
  by_cases hf : f c = 0
  · by_cases hg : g c = 0
    · rw [hf, hg]
    · have hmem : (c, g c) ∈ sparseRow g n := (mem_sparseRow g n _).mpr ⟨hc, hg, rfl⟩
      rw [← h] at hmem
      have := (mem_sparseRow f n _).mp hmem
      exact this.2.2.symm
  · have hmem : (c, f c) ∈ sparseRow f n := (mem_sparseRow f n _).mpr ⟨hc, hf, rfl⟩
    rw [h] at hmem
    have := (mem_sparseRow g n _).mp hmem
    exact this.2.2

theorem denseRows_inj [Zero α] [DecidableEq α] (R C : Nat) (D E : List (List α))
    (h : denseRows R C D = denseRows R C E) (r c : Nat) (hr : r < R) (hc : c < C) :
    entry D r c = entry E r c := by
  have h1 : (denseRows R C D)[r]? = (denseRows R C E)[r]? := by rw [h]
  simp only [denseRows, List.getElem?_map, List.getElem?_range hr, Option.map_some',
    Option.some.injEq] at h1
  exact sparseRow_inj _ _ C h1 c hc

theorem eq_of_entry_eq [Zero α] (R C : Nat) (D E : List (List α)) (hD : IsDense R C D)
    (hE : IsDense R C E) (h : ∀ r c, r < R → c < C → entry D r c = entry E r c) : D = E := by
  apply List.ext_getElem (by rw [hD.1, hE.1])
  intro r hr1 hr2
  have hl1 : D[r].length = C := hD.2 _ (List.getElem_mem hr1)
  have hl2 : E[r].length = C := hE.2 _ (List.getElem_mem hr2)
  apply List.ext_getElem (by rw [hl1, hl2])
  intro c hc1 hc2
  have := h r c (by rw [← hD.1]; exact hr1) (by rw [← hl1]; exact hc1)
  rw [entry_eq (List.getElem?_eq_getElem hr1) hc1,
    entry_eq (List.getElem?_eq_getElem hr2) hc2] at this
  exact this

theorem toRows_congr (m1 m2 : SparseMatrixCSR α) (hr : m1.rows = m2.rows)
    (ho : m1.row_offsets = m2.row_offsets) (hc : m1.column_indices = m2.column_indices)
    (hv : m1.nnz_values = m2.nnz_values) : toRows m1 = toRows m2 := by
  unfold toRows
  rw [hr, ho, hc, hv]

/-! ### The scatter loop with its record of placements -/

theorem placementsOf_append (C : Nat) (rs : List (List (Nat × α)))
    (P Q1 Q2 : List (Nat × (Nat × α))) :
    placementsOf C rs P (Q1 ++ Q2) =
      placementsOf C rs P Q1 ++ placementsOf C rs (P ++ Q1) Q2 := by
  induction Q1 generalizing P with
  | nil => simp [placementsOf]
  | cons e rest ih =>
    rw [List.cons_append, placementsOf, placementsOf, ih (P ++ [e]), List.append_assoc,
      List.singleton_append, List.cons_append]

theorem length_placementsOf (C : Nat) (rs : List (List (Nat × α)))
    (P Q : List (Nat × (Nat × α))) : (placementsOf C rs P Q).length = Q.length := by
  induction Q generalizing P with
  | nil => rfl
  | cons e rest ih => simp [placementsOf, ih]

/-- One placement of the scatter loop, with its record. -/
theorem scatterEntryTraced_state [Zero α] (C : Nat) (rs : List (List (Nat × α)))
    (P Q : List (Nat × (Nat × α))) (r : Nat) (p : Nat × α) (L : List Placement)
    (hsplit : taggedFrom 0 rs = P ++ (r, p) :: Q) (hp : p.1 < C) :
    scatterEntryTraced ((List.range C).map (colCount rs))
        (offsetsFrom 0 (transposeRows C rs)) r (scatterState C rs P, L) p =
      Except.ok (scatterState C rs (P ++ [(r, p)]), L ++ [placementOf C rs P (r, p)]) := by
  have hTlen : (transposeRows C rs).length = C := by simp [transposeRows]
  unfold scatterEntryTraced
  simp only []
  rw [scatterEntry_state C rs P Q r p hsplit hp]
  rw [readAt_offsetsFrom _ _ (by rw [hTlen]; omega), bind_ok_eq,
    @readAt_eq_ok _ _ _ (colCount rs p.1) (by simp [hp]), bind_ok_eq,
    @readAt_eq_ok _ _ _ ((colCount rs p.1 : Int) - ((inColumn p.1 P).length : Int))
      (by simp [scatterState, hp]), bind_ok_eq, bind_ok_eq]
  simp only [placementOf]
  have hpos : (((transposeRows C rs).take p.1).flatten.length : Int) +
      ((colCount rs p.1 : Int) - ((colCount rs p.1 : Int) - ((inColumn p.1 P).length : Int))) =
      ((((transposeRows C rs).take p.1).flatten.length + (inColumn p.1 P).length : Nat) :
        Int) := by
    rw [Nat.cast_add]
    omega
  rw [hpos]

/-- The placements for the entries of one row, with their record. -/
theorem foldlM_scatterEntryTraced [Zero α] (C : Nat) (rs : List (List (Nat × α))) (r : Nat)
    (row : List (Nat × α)) (P Q : List (Nat × (Nat × α))) (L : List Placement)
    (hsplit : taggedFrom 0 rs = P ++ (row.map (fun p => (r, p)) ++ Q))
    (hrow : ∀ p ∈ row, p.1 < C) :
    row.foldlM
        (scatterEntryTraced ((List.range C).map (colCount rs))
          (offsetsFrom 0 (transposeRows C rs)) r)
        (scatterState C rs P, L) =
      Except.ok (scatterState C rs (P ++ row.map (fun p => (r, p))),
        L ++ placementsOf C rs P (row.map (fun p => (r, p)))) := by
  induction row generalizing P L with
  | nil => simp [placementsOf, pure, Except.pure]
  | cons p rest ih =>
    rw [List.foldlM_cons,
      scatterEntryTraced_state C rs P (rest.map (fun p => (r, p)) ++ Q) r p L
        (by simpa using hsplit) (hrow p (List.mem_cons_self _ _)),
      bind_ok_eq, ih (P ++ [(r, p)]) _ (by simpa using hsplit)
        (fun q hq => hrow q (List.mem_cons_of_mem _ hq))]
    simp [placementsOf]

theorem scatterStepTraced_ofRows (C : Nat) (rs : List (List (Nat × α))) (cnts offs : List Nat)
    (r : Nat) (st : (SparseMatrixCSR α × List Int) × List Placement) (idx : Nat)
    (h : idx < rs.flatten.length) :
    scatterStepTraced (ofRows C rs) cnts offs r st idx =
      scatterEntryTraced cnts offs r st rs.flatten[idx] := by
  have hstep : scatterStep (ofRows C rs) cnts offs r st.1 idx =
      scatterEntry cnts offs r st.1 rs.flatten[idx] := by
    simp only [scatterStep, ofRows]
    rw [readAt_map _ _ _ h, readAt_map _ _ _ h]
    rfl
  unfold scatterStepTraced scatterEntryTraced placementAt
  rw [hstep]
  simp only [ofRows]
  rw [readAt_map _ _ _ h, bind_ok_eq]
  cases readAt offs rs.flatten[idx].1 with
  | error e => rfl
  | ok off =>
    cases readAt cnts rs.flatten[idx].1 with
    | error e => rfl
    | ok cnt =>
      cases readAt st.1.2 rs.flatten[idx].1 with
      | error e => rfl
      | ok ctr => rfl

theorem scatterRowTraced_ofRows (C : Nat) (rs : List (List (Nat × α))) (cnts offs : List Nat)
    (st : (SparseMatrixCSR α × List Int) × List Placement) (r : Nat) (hr : r < rs.length) :
    scatterRowTraced (ofRows C rs) cnts offs st r =
      rs[r].foldlM (scatterEntryTraced cnts offs r) st := by
  unfold scatterRowTraced
  have ho : (ofRows C rs).row_offsets = offsetsFrom 0 rs := rfl
  rw [ho, readAt_offsetsFrom rs r (Nat.le_of_lt hr), readAt_offsetsFrom rs (r + 1) hr]
  simp only [bind_ok_eq]
  rw [flatten_take_succ rs r hr, List.length_append, Nat.add_sub_cancel_left]
  rw [foldlM_range_segment rs.flatten _ (scatterEntryTraced cnts offs r) _ rs[r].length
    (rs.take r).flatten.length _ st]
  · rw [segment_flatten rs r hr]
  · intro s idx h
    exact scatterStepTraced_ofRows C rs cnts offs r s idx h
  · have := flatten_take_length_le rs (r + 1)
    rw [flatten_take_succ rs r hr, List.length_append] at this
    exact this

/-- The scatter loop over the first `n` rows, with its record. -/
theorem foldlM_scatterRowTraced [Zero α] (C : Nat) (rs : List (List (Nat × α)))
    (hC : ColsBelow C rs) (n : Nat) (hn : n ≤ rs.length) :
    (List.range n).foldlM
        (scatterRowTraced (ofRows C rs) ((List.range C).map (colCount rs))
          (offsetsFrom 0 (transposeRows C rs)))
        (scatterState C rs [], []) =
      Except.ok (scatterState C rs (taggedFrom 0 (rs.take n)),
        placementsOf C rs [] (taggedFrom 0 (rs.take n))) := by
  induction n with
  | zero => simp [taggedFrom, placementsOf, pure, Except.pure]
  | succ n ih =>
    have hlt : n < rs.length := hn
    rw [List.range_succ, List.foldlM_append, ih (Nat.le_of_lt hlt)]
    simp only [bind_ok_eq, List.foldlM_cons, List.foldlM_nil]
    rw [scatterRowTraced_ofRows C rs _ _ _ n hlt,
      foldlM_scatterEntryTraced C rs n rs[n] _ _ _ (taggedFrom_split rs n hlt)
        (hC _ (List.getElem_mem hlt)),
      bind_ok_eq, taggedFrom_take_succ rs n hlt, placementsOf_append]
    rfl

/-- The method `transpose` with its record of placements, on a state given by rows. -/
theorem transposeTraced_ofRows [Zero α] (C : Nat) (rs : List (List (Nat × α)))
    (hC : ColsBelow C rs) :
    transposeTraced (ofRows C rs) =
      Except.ok (ofRows rs.length (transposeRows C rs),
        placementsOf C rs [] (taggedFrom 0 rs)) := by
  have hcols : ∀ c ∈ rs.flatten.map Prod.fst, c < C := by
    intro c hc
    simp only [List.mem_map, List.mem_flatten] at hc
    obtain ⟨p, ⟨row, hrow, hp⟩, rfl⟩ := hc
    exact hC row hrow p hp
  have hcount : (rs.flatten.map Prod.fst).foldlM countStep (List.replicate C 0) =
      Except.ok ((List.range C).map (colCount rs)) := by
    have h0 : List.replicate C 0 = (List.range C).map (fun _ => 0) := by
      apply List.ext_getElem?
      intro i
      by_cases hi : i < C <;> simp [hi, List.getElem?_replicate]
    rw [h0, foldlM_countStep C _ hcols]
    congr 1
    apply List.map_congr_left
    intro c _
    rw [Nat.zero_add, count_column_indices]
  have hTlen : (transposeRows C rs).length = C := by simp [transposeRows]
  have hoffs : (List.range C).foldlM (offsetStep ((List.range C).map (colCount rs)))
      (List.replicate (C + 1) 0) = Except.ok (offsetsFrom 0 (transposeRows C rs)) := by
    have h := foldlM_offsetStep (transposeRows C rs) ((List.range C).map (colCount rs))
      (map_length_transposeRows C rs).symm C (by rw [hTlen])
    rw [hTlen, List.take_of_length_le (by rw [hTlen]), Nat.sub_self] at h
    simpa using h
  unfold transposeTraced
  simp only [ofRows] at hcount ⊢
  rw [hcount, bind_ok_eq, hoffs, bind_ok_eq]
  have hscat := foldlM_scatterRowTraced C rs hC rs.length (Nat.le_refl _)
  rw [scatterState_nil C rs hC, List.take_length] at hscat
  simp only [ofRows] at hscat
  rw [hscat, bind_ok_eq, scatterState_full C rs hC]
  rfl

/-- The method `transpose` with its record of placements, on a state with invariants 1 to
3. -/
theorem transposeTraced_eq [Zero α] (m : SparseMatrixCSR α) (h1 : Inv1 m) (h2 : Inv2 m)
    (h3 : Inv3 m) :
    transposeTraced m = Except.ok (ofRows m.rows (transposeRows m.cols (toRows m)),
      placementsOf m.cols (toRows m) [] (taggedFrom 0 (toRows m))) := by
  have h := transposeTraced_ofRows m.cols (toRows m) (colsBelow_toRows m h3)
  rw [← eq_ofRows_toRows m h1 h2] at h
  rw [h]
  simp [toRows]

/-! ### The record of placements -/

theorem map_new_row_placementsOf (C : Nat) (rs : List (List (Nat × α)))
    (P Q : List (Nat × (Nat × α))) :
    (placementsOf C rs P Q).map (fun pl => pl.new_row) = Q.map (fun e => e.2.1) := by
  induction Q generalizing P with
  | nil => rfl
  | cons e rest ih => simp [placementsOf, placementOf, ih]

theorem placementsOf_split (C : Nat) (rs : List (List (Nat × α)))
    (P Q : List (Nat × (Nat × α))) (L1 L2 : List Placement) (pl : Placement)
    (h : placementsOf C rs P Q = L1 ++ pl :: L2) :
    ∃ Q1 e Q2, Q = Q1 ++ e :: Q2 ∧ L1 = placementsOf C rs P Q1 ∧
      pl = placementOf C rs (P ++ Q1) e := by
  induction Q generalizing P L1 with
  | nil =>
    cases L1 <;> simp [placementsOf] at h
  | cons e rest ih =>
    cases L1 with
    | nil =>
      simp only [placementsOf, List.nil_append, List.cons.injEq] at h
      exact ⟨[], e, rest, rfl, rfl, by rw [List.append_nil]; exact h.1.symm⟩
    | cons a L1t =>
      simp only [placementsOf, List.cons_append, List.cons.injEq] at h
      obtain ⟨Q1, e2, Q2, hQ, hL, hpl⟩ := ih (P ++ [e]) L1t h.2
      refine ⟨e :: Q1, e2, Q2, by rw [hQ]; rfl, ?_, ?_⟩
      · rw [placementsOf, ← hL, h.1]
      · rw [hpl, List.append_assoc]
        rfl

theorem inColumn_length_lt_colCount (rs : List (List (Nat × α)))
    (P Q : List (Nat × (Nat × α))) (e : Nat × (Nat × α))
    (hsplit : taggedFrom 0 rs = P ++ e :: Q) :
    (inColumn e.2.1 P).length < colCount rs e.2.1 := by
  unfold colCount
  rw [hsplit, inColumn_append]
  simp [inColumn]

theorem getElem?_offsets_transposeRows (C : Nat) (rs : List (List (Nat × α))) (c : Nat)
    (hc : c < C) :
    (offsetsFrom 0 (transposeRows C rs))[c]? =
        some ((transposeRows C rs).take c).flatten.length ∧
      (offsetsFrom 0 (transposeRows C rs))[c + 1]? =
        some (((transposeRows C rs).take c).flatten.length + colCount rs c) := by
  have hTlen : (transposeRows C rs).length = C := by simp [transposeRows]
  have hc2 : c < (transposeRows C rs).length := by rw [hTlen]; exact hc
  constructor
  · rw [getElem?_offsetsFrom _ 0 c (Nat.le_of_lt hc2), Nat.zero_add]
  · rw [getElem?_offsetsFrom _ 0 (c + 1) hc2, Nat.zero_add, flatten_take_succ _ c hc2,
      List.length_append]
    congr 2
    simp [transposeRows, colCount, List.getElem_map, List.getElem_range]

/-- Every placement of the record lies in the segment of its new row. -/
theorem placement_bounds (C : Nat) (rs : List (List (Nat × α))) (hC : ColsBelow C rs)
    (pl : Placement) (hpl : pl ∈ placementsOf C rs [] (taggedFrom 0 rs)) :
    ∃ lo hi, (offsetsFrom 0 (transposeRows C rs))[pl.new_row]? = some lo ∧
      (offsetsFrom 0 (transposeRows C rs))[pl.new_row + 1]? = some hi ∧
      (lo : Int) ≤ pl.new_position ∧ pl.new_position < (hi : Int) ∧
      hi ≤ rs.flatten.length := by
  obtain ⟨L1, L2, hL⟩ := List.append_of_mem hpl
  obtain ⟨Q1, e, Q2, hQ, _, hpe⟩ := placementsOf_split C rs [] _ L1 L2 pl hL
  rw [List.nil_append] at hpe
  have he : e ∈ taggedFrom 0 rs := by rw [hQ]; simp
  have hcol : e.2.1 < C := by
    have := filter_cols_below rs C 0 hC
    rw [List.filter_eq_self] at this
    simpa using this e he
  have hroom := inColumn_length_lt_colCount rs Q1 Q2 e hQ
  obtain ⟨ho1, ho2⟩ := getElem?_offsets_transposeRows C rs e.2.1 hcol
  have hTlen : (transposeRows C rs).length = C := by simp [transposeRows]
  have hhi : ((transposeRows C rs).take e.2.1).flatten.length + colCount rs e.2.1 ≤
      rs.flatten.length := by
    have hlt : e.2.1 < (transposeRows C rs).length := by rw [hTlen]; exact hcol
    have h1 := flatten_take_length_le (transposeRows C rs) (e.2.1 + 1)
    rw [flatten_take_succ _ e.2.1 hlt, List.length_append,
      length_flatten_transposeRows C rs hC] at h1
    have h2 : ((transposeRows C rs)[e.2.1]).length = colCount rs e.2.1 := by
      simp [transposeRows, colCount, List.getElem_map, List.getElem_range]
    rw [h2] at h1
    exact h1
  rw [hpe]
  refine ⟨_, _, ho1, ho2, ?_, ?_, hhi⟩
  · simp only [placementOf]
    rw [Nat.cast_add]
    omega
  · simp only [placementOf]
    rw [Nat.cast_add, Nat.cast_add]
    omega

theorem flatten_filter_key_perm {β : Type} (key : β → Nat) (l : List β) (C : Nat) :
    List.Perm ((List.range C).map (fun c => l.filter (fun x => decide (key x = c)))).flatten
      (l.filter (fun x => decide (key x < C))) := by
  induction C with
  | zero => simp
  | succ C ih =>
    rw [List.range_succ, List.map_append, List.flatten_append]
    simp only [List.map_cons, List.map_nil, List.flatten_cons, List.flatten_nil,
      List.append_nil]
    have h1 : l.filter (fun x => decide (key x < C)) =
        (l.filter (fun x => decide (key x < C + 1))).filter (fun x => decide (key x < C)) := by
      rw [List.filter_filter]
      apply List.filter_congr
      intro x _
      by_cases h : key x < C
      · have : key x < C + 1 := by omega
        simp [h, this]
      · simp [h]
    have h2 : l.filter (fun x => decide (key x = C)) =
        (l.filter (fun x => decide (key x < C + 1))).filter
          (fun x => !(decide (key x < C))) := by
      rw [List.filter_filter]
      apply List.filter_congr
      intro x _
      by_cases h : key x = C
      · simp [h]
      · by_cases h3 : key x < C
        · simp [h, h3]
        · have : ¬ key x < C + 1 := by omega
          simp [h, h3, this]
    refine (List.Perm.append_right _ ih).trans ?_
    rw [h1, h2]
    exact List.filter_append_perm _ _

/-- The positions of the placements into new row `c`, in order, are consecutive. -/
theorem positions_in_row (C : Nat) (rs : List (List (Nat × α)))
    (P Q : List (Nat × (Nat × α))) (c : Nat) :
    ((placementsOf C rs P Q).filter (fun pl => decide (pl.new_row = c))).map
        (fun pl => pl.new_position) =
      (List.range' (((transposeRows C rs).take c).flatten.length + (inColumn c P).length)
        (inColumn c Q).length).map Int.ofNat := by
  induction Q generalizing P with
  | nil => simp [placementsOf, inColumn]
  | cons e rest ih =>
    rw [placementsOf, List.filter_cons]
    by_cases h : e.2.1 = c
    · have h1 : decide ((placementOf C rs P e).new_row = c) = true := by
        simpa [placementOf] using h
      have h2 : inColumn c (e :: rest) = e :: inColumn c rest := by
        simp [inColumn, List.filter_cons, h]
      have h3 : inColumn c (P ++ [e]) = inColumn c P ++ [e] := by
        rw [inColumn_append, inColumn_singleton, if_pos h]
      rw [if_pos h1, List.map_cons, ih (P ++ [e]), h2, h3, List.length_cons,
        List.range'_succ, List.map_cons, List.length_append, List.length_singleton]
      subst h
      rfl
    · have h1 : ¬ decide ((placementOf C rs P e).new_row = c) = true := by
        simpa [placementOf] using h
      have h2 : inColumn c (e :: rest) = inColumn c rest := by
        simp [inColumn, List.filter_cons, h]
      have h3 : inColumn c (P ++ [e]) = inColumn c P := by
        rw [inColumn_append, inColumn_singleton, if_neg h, List.append_nil]
      rw [if_neg h1, ih (P ++ [e]), h2, h3]

theorem flatten_consecutive_ranges (ns : Nat → Nat) (n : Nat) :
    ((List.range n).map (fun c => List.range' ((List.range c).map ns).sum (ns c))).flatten =
      List.range ((List.range n).map ns).sum := by
  induction n with
  | zero => simp
  | succ n ih =>
    rw [List.range_succ, List.map_append, List.flatten_append, ih, List.map_append,
      List.sum_append]
    simp only [List.map_cons, List.map_nil, List.flatten_cons, List.flatten_nil,
      List.append_nil, List.sum_cons, List.sum_nil, Nat.add_zero]
    rw [List.range_add, List.range'_eq_map_range]

theorem length_flatten_take_transposeRows (C : Nat) (rs : List (List (Nat × α))) (c : Nat)
    (hc : c ≤ C) :
    ((transposeRows C rs).take c).flatten.length = ((List.range c).map (colCount rs)).sum := by
  rw [List.length_flatten, List.map_take, map_length_transposeRows, ← List.map_take,
    List.take_range, Nat.min_eq_left hc]

/-- Every position in `[0, nnz)` is the position of exactly one placement. -/
theorem positions_perm (C : Nat) (rs : List (List (Nat × α))) (hC : ColsBelow C rs) :
    List.Perm ((placementsOf C rs [] (taggedFrom 0 rs)).map (fun pl => pl.new_position))
      ((List.range rs.flatten.length).map Int.ofNat) := by
  have hall : (placementsOf C rs [] (taggedFrom 0 rs)).filter
      (fun pl => decide (pl.new_row < C)) = placementsOf C rs [] (taggedFrom 0 rs) := by
    rw [List.filter_eq_self]
    intro pl hpl
    have hmem : pl.new_row ∈ (placementsOf C rs [] (taggedFrom 0 rs)).map
        (fun pl => pl.new_row) := List.mem_map_of_mem _ hpl
    rw [map_new_row_placementsOf, List.mem_map] at hmem
    obtain ⟨e, he, hnr⟩ := hmem
    have := filter_cols_below rs C 0 hC
    rw [List.filter_eq_self] at this
    have h2 := this e he
    rw [← hnr]
    exact h2
  have hperm := (flatten_filter_key_perm (fun pl : Placement => pl.new_row)
    (placementsOf C rs [] (taggedFrom 0 rs)) C).map (fun pl => pl.new_position)
  rw [hall] at hperm
  refine hperm.symm.trans ?_
  rw [List.map_flatten, List.map_map]
  have hblocks : (List.range C).map
      (List.map (fun pl : Placement => pl.new_position) ∘ fun c =>
        (placementsOf C rs [] (taggedFrom 0 rs)).filter (fun x => decide (x.new_row = c))) =
      (List.range C).map (fun c =>
        (List.range' ((List.range c).map (colCount rs)).sum (colCount rs c)).map
          Int.ofNat) := by
    apply List.map_congr_left
    intro c hc
    have hc2 : c < C := List.mem_range.mp hc
    have := positions_in_row C rs [] (taggedFrom 0 rs) c
    simp only [Function.comp]
    rw [this, length_flatten_take_transposeRows C rs c (Nat.le_of_lt hc2)]
    rfl
  rw [hblocks]
  have hmm : (List.range C).map (fun c =>
        (List.range' ((List.range c).map (colCount rs)).sum (colCount rs c)).map
          Int.ofNat) =
      ((List.range C).map (fun c =>
        List.range' ((List.range c).map (colCount rs)).sum (colCount rs c))).map
        (List.map Int.ofNat) := by
    rw [List.map_map]
    rfl
  rw [hmm, ← List.map_flatten, flatten_consecutive_ranges, sum_colCount C rs hC]

/-- The loop body `scatterStep` writes both arrays at the `new_position` of the placement
that `placementAt` records, and decrements the counter of its new row. -/
theorem scatterStep_writes_at_placement (m : SparseMatrixCSR α)
    (col_ele_counts new_row_offsets : List Nat) (row : Nat)
    (st : SparseMatrixCSR α × List Int) (idx : Nat) :
    scatterStep m col_ele_counts new_row_offsets row st idx = (do
      let _ ← readAt m.column_indices idx
      let value ← readAt m.nnz_values idx
      let pl ← placementAt m col_ele_counts new_row_offsets st.2 idx
      let cis ← writeAtInt st.1.column_indices pl.new_position row
      let vals ← writeAtInt st.1.nnz_values pl.new_position value
      let ctrs ← writeAt st.2 pl.new_row (pl.counter - 1)
      Except.ok ({ st.1 with column_indices := cis, nnz_values := vals }, ctrs)) := by
  unfold scatterStep placementAt
  cases readAt m.column_indices idx with
  | error e => rfl
  | ok col =>
    cases readAt m.nnz_values idx with
    | error e => rfl
    | ok value =>
      simp only [bind_ok_eq]
      cases readAt new_row_offsets col with
      | error e => rfl
      | ok off =>
        simp only [bind_ok_eq]
        cases readAt col_ele_counts col with
        | error e => rfl
        | ok cnt =>
          simp only [bind_ok_eq]
          cases readAt st.2 col with
          | error e => rfl
          | ok ctr => rfl

theorem length_filter_new_row (C : Nat) (rs : List (List (Nat × α)))
    (P Q : List (Nat × (Nat × α))) (c : Nat) :
    ((placementsOf C rs P Q).filter (fun pl => decide (pl.new_row = c))).length =
      (inColumn c Q).length := by
  have h := congrArg List.length (positions_in_row C rs P Q c)
  simpa using h

theorem nnz_eq_of_inv (m : SparseMatrixCSR α) (h1 : Inv1 m) (h2 : Inv2 m) :
    m.nnz = (toRows m).flatten.length ∧
      m.column_indices = (toRows m).flatten.map Prod.fst := by
  have hA := eq_ofRows_toRows m h1 h2
  constructor
  · conv => lhs; rw [hA]
    rfl
  · conv => lhs; rw [hA]
    rfl

/-! ## The claims -/

/-- C1. Multiply correctness: for a `rows x cols` dense matrix `D` and a vector `x` of length
`cols`, over a commutative ring, `buildFromDense(D)` succeeds and `multiply(x)` then returns a
vector of length `rows` whose entry `r` is the dot product of dense row `r` with `x`; it is
the vector that the dense reference `DenseMatrix::multiply` returns. -/
theorem C1_multiply_correct [CommRing α] [DecidableEq α] (rows cols : Nat) (D : List (List α))
    (x : List α) (hD : IsDense rows cols D) (hx : x.length = cols) :
    (buildFromDense (SparseMatrixCSR.new rows cols) D).1 = Except.ok () ∧
    ∃ ys, multiply (buildFromDense (SparseMatrixCSR.new rows cols) D).2 x = Except.ok ys ∧
      ys.length = rows ∧
      (∀ r, r < rows → ys[r]? = some (∑ c in Finset.range cols, entry D r c * x.getD c 0)) ∧
      DenseMatrix.multiply ⟨D, rows, cols⟩ x = Except.ok ys := by
  rw [build_new rows cols D hD]
  refine ⟨rfl, (List.range rows).map (rowDot D x cols), ?_, by simp, ?_, ?_⟩
  · have h := multiply_ofRows cols (denseRows rows cols D) x hx (colsBelow_denseRows rows cols D)
    rw [map_rowSum_denseRows] at h
    exact h
  · intro r hr
    rw [List.getElem?_map, List.getElem?_range hr]
    rfl
  · have h := foldlM_dense_multiplyRow rows cols D x hD hx rows (Nat.le_refl _)
    rw [Nat.sub_self, List.replicate_zero, List.append_nil] at h
    exact h

/-- Witness for C1: the matrix of `testBasicMultiplication` with the vector `[1, 1, 1]`. -/
theorem C1_multiply_correct_witness :
    ∃ ys, multiply (buildFromDense (SparseMatrixCSR.new 3 3)
        ([[1, 0, 2], [0, 3, 0], [4, 0, 5]] : List (List Int))).2 [1, 1, 1] = Except.ok ys ∧
      ys.length = 3 ∧
      (∀ r, r < 3 → ys[r]? = some (∑ c in Finset.range 3,
        entry ([[1, 0, 2], [0, 3, 0], [4, 0, 5]] : List (List Int)) r c *
          ([1, 1, 1] : List Int).getD c 0)) ∧
      DenseMatrix.multiply ⟨([[1, 0, 2], [0, 3, 0], [4, 0, 5]] : List (List Int)), 3, 3⟩
        [1, 1, 1] = Except.ok ys :=
  (C1_multiply_correct 3 3 [[1, 0, 2], [0, 3, 0], [4, 0, 5]] [1, 1, 1] (by decide)
    (by decide)).2

/-- C2. Transpose correctness: for a `rows x cols` dense matrix `D`, `buildFromDense(D)`
followed by `transpose()` succeeds and returns a matrix equal, field by field, to the one
built on a `cols x rows` matrix from the dense transpose `Dt` with `Dt[c][r] = D[r][c]`. -/
theorem C2_transpose_correct [Zero α] [DecidableEq α] (rows cols : Nat) (D : List (List α))
    (hD : IsDense rows cols D) :
    (buildFromDense (SparseMatrixCSR.new rows cols) D).1 = Except.ok () ∧
    (buildFromDense (SparseMatrixCSR.new cols rows) (denseTranspose rows cols D)).1 =
      Except.ok () ∧
    transpose (buildFromDense (SparseMatrixCSR.new rows cols) D).2 =
      Except.ok (buildFromDense (SparseMatrixCSR.new cols rows) (denseTranspose rows cols D)).2 := by
  rw [build_new rows cols D hD,
    build_new cols rows _ (isDense_denseTranspose rows cols D)]
  refine ⟨rfl, rfl, ?_⟩
  simp only []
  rw [transpose_ofRows cols _ (colsBelow_denseRows rows cols D), length_denseRows,
    transposeRows_denseRows]

/-- Witness for C2: the rectangular matrix of `testTransposeRectangular`. -/
theorem C2_transpose_correct_witness :
    transpose (buildFromDense (SparseMatrixCSR.new 2 3)
        ([[1, 0, 2], [3, 4, 0]] : List (List Int))).2 =
      Except.ok (buildFromDense (SparseMatrixCSR.new 3 2)
        (denseTranspose 2 3 ([[1, 0, 2], [3, 4, 0]] : List (List Int)))).2 :=
  (C2_transpose_correct 2 3 [[1, 0, 2], [3, 4, 0]] (by decide)).2.2

/-- C3. After a successful `buildFromDense(D)` on a `rows x cols` dense matrix, `getNNZ()` is
the number of pairs `(r, c)` with `D[r][c]` not zero. -/
theorem C3_nnz_counts_nonzero [Zero α] [DecidableEq α] (rows cols : Nat) (D : List (List α))
    (hD : IsDense rows cols D) :
    (buildFromDense (SparseMatrixCSR.new rows cols) D).1 = Except.ok () ∧
    getNNZ (buildFromDense (SparseMatrixCSR.new rows cols) D).2 =
      ((Finset.range rows ×ˢ Finset.range cols).filter
        (fun rc => entry D rc.1 rc.2 ≠ 0)).card := by
  rw [build_new rows cols D hD]
  refine ⟨rfl, ?_⟩
  simp only [getNNZ, ofRows]
  rw [length_flatten_denseRows, Finset.card_filter, Finset.sum_product]

/-- Witness for C3: the all-zero matrix of `testEmptyMatrix`. -/
theorem C3_nnz_counts_nonzero_witness :
    getNNZ (buildFromDense (SparseMatrixCSR.new 2 2) ([[0, 0], [0, 0]] : List (List Int))).2 =
      ((Finset.range 2 ×ˢ Finset.range 2).filter
        (fun rc => entry ([[0, 0], [0, 0]] : List (List Int)) rc.1 rc.2 ≠ 0)).card :=
  (C3_nnz_counts_nonzero 2 2 [[0, 0], [0, 0]] (by decide)).2

/-- C4. `buildFromDense` dimension validation: on every reachable receiver and every dense
input the call throws `std::invalid_argument` exactly when `dense` does not have `rows` rows
or some row of it does not have `cols` entries, and in every other case it returns normally
(in particular no subscript is out of range). -/
theorem C4_buildFromDense_validation [Zero α] [DecidableEq α] (m : SparseMatrixCSR α)
    (hm : Reachable m) (dense : List (List α)) :
    ((buildFromDense m dense).1 = Except.error Error.invalid_argument ↔
      (dense.length ≠ m.rows ∨ ∃ row ∈ dense, row.length ≠ m.cols)) ∧
    (¬ (dense.length ≠ m.rows ∨ ∃ row ∈ dense, row.length ≠ m.cols) →
      (buildFromDense m dense).1 = Except.ok ()) := by
  have hiff : IsDense m.rows m.cols dense ↔
      ¬ (dense.length ≠ m.rows ∨ ∃ row ∈ dense, row.length ≠ m.cols) := by
    unfold IsDense
    constructor
    · rintro ⟨h1, h2⟩ (h | ⟨row, hrow, h⟩)
      · exact h h1
      · exact h (h2 row hrow)
    · intro h
      refine ⟨not_not.mp (fun h1 => h (Or.inl h1)), fun row hrow => ?_⟩
      exact not_not.mp (fun h2 => h (Or.inr ⟨row, hrow, h2⟩))
  rw [buildFromDense_eq m dense (reachable_inv m hm).1.1]
  by_cases hD : IsDense m.rows m.cols dense
  · rw [if_pos hD]
    refine ⟨⟨fun h => by simp at h, fun h => absurd h (hiff.mp hD)⟩, fun _ => rfl⟩
  · rw [if_neg hD]
    refine ⟨⟨fun _ => ?_, fun _ => rfl⟩, fun h => absurd (hiff.mpr h) hD⟩
    exact not_not.mp (fun h => hD (hiff.mpr h))

/-- Witness for C4: a freshly constructed `2 x 2` matrix given a dense matrix with a row of
three entries. -/
theorem C4_buildFromDense_validation_witness :
    ((buildFromDense (SparseMatrixCSR.new 2 2 : SparseMatrixCSR Int) [[1, 2, 3], [4, 5]]).1 =
        Except.error Error.invalid_argument ↔
      ((([[1, 2, 3], [4, 5]] : List (List Int))).length ≠
          (SparseMatrixCSR.new 2 2 : SparseMatrixCSR Int).rows ∨
        ∃ row ∈ ([[1, 2, 3], [4, 5]] : List (List Int)),
          row.length ≠ (SparseMatrixCSR.new 2 2 : SparseMatrixCSR Int).cols)) :=
  (C4_buildFromDense_validation (SparseMatrixCSR.new 2 2) (Reachable.constructed 2 2)
    [[1, 2, 3], [4, 5]]).1

/-- C5. `multiply` dimension validation: on every reachable state and every vector `v` the
call throws `std::invalid_argument` exactly when the length of `v` differs from `cols`; when
the length is `cols` it returns a vector, so no subscript of `row_offsets`,
`column_indices`, `nnz_values`, `v` or the result is out of range. -/
theorem C5_multiply_validation [Zero α] [Add α] [Mul α] [DecidableEq α]
    (m : SparseMatrixCSR α) (hm : Reachable m) (v : List α) :
    (multiply m v = Except.error Error.invalid_argument ↔ v.length ≠ m.cols) ∧
    (v.length = m.cols → ∃ ys, multiply m v = Except.ok ys) := by
  obtain ⟨h1, h2, h3⟩ := reachable_inv m hm
  by_cases hv : v.length = m.cols
  · rw [multiply_eq m h1 h2 h3 v hv]
    exact ⟨⟨fun h => by simp at h, fun h => absurd hv h⟩, fun _ => ⟨_, rfl⟩⟩
  · refine ⟨⟨fun _ => hv, fun _ => ?_⟩, fun h => absurd h hv⟩
    unfold multiply
    rw [if_pos hv]

/-- Witness for C5: the `2 x 2` matrix of `testDimensionMismatch` with a vector of length
three. -/
theorem C5_multiply_validation_witness :
    (multiply (buildFromDense (SparseMatrixCSR.new 2 2 : SparseMatrixCSR Int)
        [[1, 2], [3, 4]]).2 [1, 2, 3] = Except.error Error.invalid_argument ↔
      ([1, 2, 3] : List Int).length ≠
        (buildFromDense (SparseMatrixCSR.new 2 2 : SparseMatrixCSR Int) [[1, 2], [3, 4]]).2.cols) :=
  (C5_multiply_validation _ (Reachable.built _ [[1, 2], [3, 4]] (Reachable.constructed 2 2))
    [1, 2, 3]).1

/-- C6. Transpose involution: for every matrix `A` built by `buildFromDense` from a
`rows x cols` dense matrix, and for every state `A` with invariants 1 to 4 of the data model,
`A.transpose()` returns a matrix `t` and `t.transpose()` returns `A` itself: the same `rows`,
`cols`, `nnz`, `row_offsets`, `column_indices` and values. -/
theorem C6_transpose_involution [Zero α] [DecidableEq α] (A : SparseMatrixCSR α)
    (hA : (∃ rows cols D, IsDense rows cols D ∧
        A = (buildFromDense (SparseMatrixCSR.new rows cols) D).2) ∨
      (Inv1 A ∧ Inv2 A ∧ Inv3 A ∧ Inv4 A)) :
    ∃ t, transpose A = Except.ok t ∧ transpose t = Except.ok A := by
  rcases hA with ⟨rows, cols, D, hD, rfl⟩ | ⟨h1, h2, h3, h4⟩
  · rw [build_new rows cols D hD]
    simp only []
    refine ⟨_, transpose_ofRows cols _ (colsBelow_denseRows rows cols D), ?_⟩
    rw [length_denseRows, transposeRows_denseRows,
      transpose_ofRows rows _ (colsBelow_denseRows cols rows _), length_denseRows,
      transposeRows_denseRows, denseRows_denseTranspose_twice]
  · have hA := eq_ofRows_toRows A h1 h2
    have hC := colsBelow_toRows A h3
    have hlen : (toRows A).length = A.rows := by simp [toRows]
    refine ⟨_, transpose_eq A h1 h2 h3, ?_⟩
    have ht := transpose_ofRows (toRows A).length (transposeRows A.cols (toRows A))
      (colsBelow_transposeRows A.cols (toRows A))
    rw [transposeRows_transposeRows A.cols (toRows A) hC (sorted_toRows A h2 h4)] at ht
    have hTlen : (transposeRows A.cols (toRows A)).length = A.cols := by simp [transposeRows]
    rw [hTlen, hlen, ← hA] at ht
    exact ht

/-- Witness for C6: the state built from the `2 x 3` matrix of `testTransposeRectangular`. -/
theorem C6_transpose_involution_witness :
    ∃ t, transpose (⟨2, 3, 4, [0, 2, 4], [0, 2, 0, 1], [1, 2, 3, 4]⟩ : SparseMatrixCSR Int) =
        Except.ok t ∧
      transpose t =
        Except.ok (⟨2, 3, 4, [0, 2, 4], [0, 2, 0, 1], [1, 2, 3, 4]⟩ : SparseMatrixCSR Int) :=
  C6_transpose_involution ⟨2, 3, 4, [0, 2, 4], [0, 2, 0, 1], [1, 2, 3, 4]⟩
    (Or.inr (by decide))

/-- C7. Transpose adjoint identity: for the matrix `A` built from a `rows x cols` dense
matrix, every `x` of length `cols` and every `y` of length `rows`, over a commutative ring,
the transpose and both products exist and `dot(A.multiply(x), y)` equals
`dot(A.transpose().multiply(y), x)`. -/
theorem C7_transpose_adjoint [CommRing α] [DecidableEq α] (rows cols : Nat)
    (D : List (List α)) (x y : List α) (hD : IsDense rows cols D) (hx : x.length = cols)
    (hy : y.length = rows) :
    ∃ t u v, transpose (buildFromDense (SparseMatrixCSR.new rows cols) D).2 = Except.ok t ∧
      multiply (buildFromDense (SparseMatrixCSR.new rows cols) D).2 x = Except.ok u ∧
      multiply t y = Except.ok v ∧ dot u y = dot v x := by
  rw [build_new rows cols D hD]
  have ht := transpose_ofRows cols _ (colsBelow_denseRows rows cols D)
  rw [length_denseRows, transposeRows_denseRows] at ht
  have hu := multiply_ofRows cols (denseRows rows cols D) x hx (colsBelow_denseRows rows cols D)
  rw [map_rowSum_denseRows] at hu
  have hv := multiply_ofRows rows (denseRows cols rows (denseTranspose rows cols D)) y hy
    (colsBelow_denseRows cols rows _)
  rw [map_rowSum_denseRows] at hv
  refine ⟨_, _, _, ht, hu, hv, ?_⟩
  rw [dot_map_range _ y rows hy, dot_map_range _ x cols hx]
  simp only [rowDot, Finset.sum_mul]
  rw [Finset.sum_comm]
  apply Finset.sum_congr rfl
  intro c hc
  apply Finset.sum_congr rfl
  intro r hr
  rw [entry_denseTranspose rows cols D c r (Finset.mem_range.mp hc) (Finset.mem_range.mp hr)]
  ring

/-- Witness for C7: the `2 x 3` matrix of `testTransposeRectangular` with `x = [1, 2, 3]` and
`y = [4, 5]`. -/
theorem C7_transpose_adjoint_witness :
    ∃ t u v,
      transpose (buildFromDense (SparseMatrixCSR.new 2 3)
        ([[1, 0, 2], [3, 4, 0]] : List (List Int))).2 = Except.ok t ∧
      multiply (buildFromDense (SparseMatrixCSR.new 2 3)
        ([[1, 0, 2], [3, 4, 0]] : List (List Int))).2 [1, 2, 3] = Except.ok u ∧
      multiply t [4, 5] = Except.ok v ∧ dot u [4, 5] = dot v [1, 2, 3] :=
  C7_transpose_adjoint 2 3 [[1, 0, 2], [3, 4, 0]] [1, 2, 3] [4, 5] (by decide) (by decide)
    (by decide)

/-- C8. Transpose shape: for every receiver `A` with invariants 1 to 3 of the data model,
`A.transpose()` returns a matrix `t` with `getRows() = A.getCols()`,
`getCols() = A.getRows()`, `getNNZ() = A.getNNZ()`, whose values array is a permutation of
the values array of `A`. -/
theorem C8_transpose_shape [Zero α] (A : SparseMatrixCSR α) (h1 : Inv1 A) (h2 : Inv2 A)
    (h3 : Inv3 A) :
    ∃ t, transpose A = Except.ok t ∧ getRows t = getCols A ∧ getCols t = getRows A ∧
      getNNZ t = getNNZ A ∧ List.Perm t.nnz_values A.nnz_values := by
  have hA := eq_ofRows_toRows A h1 h2
  have hC := colsBelow_toRows A h3
  refine ⟨_, transpose_eq A h1 h2 h3, ?_, rfl, ?_, ?_⟩
  · simp [getRows, getCols, ofRows, transposeRows]
  · have hn : A.nnz = (toRows A).flatten.length := by
      conv => lhs; rw [hA]
      rfl
    simp only [getNNZ, ofRows]
    rw [length_flatten_transposeRows A.cols (toRows A) hC, hn]
  · have hv : A.nnz_values = (toRows A).flatten.map Prod.snd := by
      conv => lhs; rw [hA]
      rfl
    rw [hv]
    exact values_transposeRows_perm A.cols (toRows A) hC

/-- Witness for C8: the state built from the `2 x 3` matrix of `testTransposeRectangular`. -/
theorem C8_transpose_shape_witness :
    ∃ t, transpose (⟨2, 3, 4, [0, 2, 4], [0, 2, 0, 1], [1, 2, 3, 4]⟩ : SparseMatrixCSR Int) =
        Except.ok t ∧
      getRows t = getCols (⟨2, 3, 4, [0, 2, 4], [0, 2, 0, 1], [1, 2, 3, 4]⟩ : SparseMatrixCSR Int) ∧
      getCols t = getRows (⟨2, 3, 4, [0, 2, 4], [0, 2, 0, 1], [1, 2, 3, 4]⟩ : SparseMatrixCSR Int) ∧
      getNNZ t = getNNZ (⟨2, 3, 4, [0, 2, 4], [0, 2, 0, 1], [1, 2, 3, 4]⟩ : SparseMatrixCSR Int) ∧
      List.Perm t.nnz_values [1, 2, 3, 4] :=
  C8_transpose_shape ⟨2, 3, 4, [0, 2, 4], [0, 2, 0, 1], [1, 2, 3, 4]⟩ (by decide) (by decide)
    (by decide)

/-- C9. Multiply linearity: for every matrix `A` with invariants 1 to 3 of the data model and
all vectors `x`, `y` of length `cols`, over a commutative ring, the three products exist and
the elementwise sum of `A.multiply(x)` and `A.multiply(y)` is `A.multiply(x + y)`. -/
theorem C9_multiply_linear [CommRing α] (A : SparseMatrixCSR α) (h1 : Inv1 A) (h2 : Inv2 A)
    (h3 : Inv3 A) (x y : List α) (hx : x.length = A.cols) (hy : y.length = A.cols) :
    ∃ u v w, multiply A x = Except.ok u ∧ multiply A y = Except.ok v ∧
      multiply A (vecAdd x y) = Except.ok w ∧ vecAdd u v = w := by
  have hxy : (vecAdd x y).length = A.cols := by
    simp [vecAdd, hx, hy]
  refine ⟨_, _, _, multiply_eq A h1 h2 h3 x hx, multiply_eq A h1 h2 h3 y hy,
    multiply_eq A h1 h2 h3 _ hxy, ?_⟩
  rw [vecAdd_map]
  apply List.map_congr_left
  intro row _
  exact (rowSum_vecAdd x y (by rw [hx, hy]) row).symm

/-- Witness for C9: the matrix of `testBasicMultiplication` with `x = [1, 2, 3]` and
`y = [4, 5, 6]`. -/
theorem C9_multiply_linear_witness :
    ∃ u v w,
      multiply (⟨3, 3, 5, [0, 2, 3, 5], [0, 2, 1, 0, 2], [1, 2, 3, 4, 5]⟩ : SparseMatrixCSR Int)
        [1, 2, 3] = Except.ok u ∧
      multiply (⟨3, 3, 5, [0, 2, 3, 5], [0, 2, 1, 0, 2], [1, 2, 3, 4, 5]⟩ : SparseMatrixCSR Int)
        [4, 5, 6] = Except.ok v ∧
      multiply (⟨3, 3, 5, [0, 2, 3, 5], [0, 2, 1, 0, 2], [1, 2, 3, 4, 5]⟩ : SparseMatrixCSR Int)
        (vecAdd [1, 2, 3] [4, 5, 6]) = Except.ok w ∧
      vecAdd u v = w :=
  C9_multiply_linear ⟨3, 3, 5, [0, 2, 3, 5], [0, 2, 1, 0, 2], [1, 2, 3, 4, 5]⟩ (by decide)
    (by decide) (by decide) [1, 2, 3] [4, 5, 6] (by decide) (by decide)

/-- C10. Full rebuild: on every reachable receiver of dimensions `rows x cols` and every
`rows x cols` dense matrix `D2`, `buildFromDense(D2)` returns normally and leaves exactly the
state that `buildFromDense(D2)` leaves on a freshly constructed `rows x cols` matrix; `rows`
and `cols` are unchanged. -/
theorem C10_full_rebuild [Zero α] [DecidableEq α] (m : SparseMatrixCSR α) (hm : Reachable m)
    (D2 : List (List α)) (hD : IsDense m.rows m.cols D2) :
    buildFromDense m D2 = buildFromDense (SparseMatrixCSR.new m.rows m.cols) D2 ∧
    (buildFromDense m D2).1 = Except.ok () ∧
    (buildFromDense m D2).2.rows = m.rows ∧ (buildFromDense m D2).2.cols = m.cols := by
  rw [build_new m.rows m.cols D2 hD, buildFromDense_eq m D2 (reachable_inv m hm).1.1, if_pos hD]
  exact ⟨rfl, rfl, length_denseRows _ _ _, rfl⟩

/-- Witness for C10: a `2 x 2` matrix that already stores three entries is rebuilt from the
identity. -/
theorem C10_full_rebuild_witness :
    buildFromDense (buildFromDense (SparseMatrixCSR.new 2 2 : SparseMatrixCSR Int)
        [[1, 2], [3, 0]]).2 [[1, 0], [0, 1]] =
      buildFromDense (SparseMatrixCSR.new
        (buildFromDense (SparseMatrixCSR.new 2 2 : SparseMatrixCSR Int) [[1, 2], [3, 0]]).2.rows
        (buildFromDense (SparseMatrixCSR.new 2 2 : SparseMatrixCSR Int) [[1, 2], [3, 0]]).2.cols)
        [[1, 0], [0, 1]] :=
  (C10_full_rebuild _ (Reachable.built _ [[1, 2], [3, 0]] (Reachable.constructed 2 2))
    [[1, 0], [0, 1]] (by decide)).1

/-- C11. Multiplying by the transpose: for a `rows x cols` dense matrix `D` and a vector `y`
of length `rows`, over a commutative ring, `buildFromDense(D)`, `transpose()` and
`multiply(y)` all succeed, the result has length `cols`, and its entry `c` is the sum over
`r` in `[0, rows)` of `D[r][c] * y[r]`. -/
theorem C11_transpose_multiply [CommRing α] [DecidableEq α] (rows cols : Nat)
    (D : List (List α)) (y : List α) (hD : IsDense rows cols D) (hy : y.length = rows) :
    (buildFromDense (SparseMatrixCSR.new rows cols) D).1 = Except.ok () ∧
    ∃ t ys, transpose (buildFromDense (SparseMatrixCSR.new rows cols) D).2 = Except.ok t ∧
      multiply t y = Except.ok ys ∧ ys.length = cols ∧
      ∀ c, c < cols → ys[c]? = some (∑ r in Finset.range rows, entry D r c * y.getD r 0) := by
  rw [build_new rows cols D hD]
  have ht := transpose_ofRows cols _ (colsBelow_denseRows rows cols D)
  rw [length_denseRows, transposeRows_denseRows] at ht
  have hv := multiply_ofRows rows (denseRows cols rows (denseTranspose rows cols D)) y hy
    (colsBelow_denseRows cols rows _)
  rw [map_rowSum_denseRows] at hv
  refine ⟨rfl, _, _, ht, hv, by simp, ?_⟩
  intro c hc
  rw [List.getElem?_map, List.getElem?_range hc]
  simp only [Option.map_some', rowDot]
  congr 1
  apply Finset.sum_congr rfl
  intro r hr
  rw [entry_denseTranspose rows cols D c r hc (Finset.mem_range.mp hr)]

/-- Witness for C11: the matrix of `testBasicTranspose` with the vector `[1, 1]`. -/
theorem C11_transpose_multiply_witness :
    ∃ t ys, transpose (buildFromDense (SparseMatrixCSR.new 2 2)
        ([[1, 2], [3, 0]] : List (List Int))).2 = Except.ok t ∧
      multiply t [1, 1] = Except.ok ys ∧ ys.length = 2 ∧
      ∀ c, c < 2 → ys[c]? = some (∑ r in Finset.range 2,
        entry ([[1, 2], [3, 0]] : List (List Int)) r c * ([1, 1] : List Int).getD r 0) :=
  (C11_transpose_multiply 2 2 [[1, 2], [3, 0]] [1, 1] (by decide) (by decide)).2

/-- C12. Identity matrix multiply: for every `n` (in particular every `n >= 1`), over a
commutative ring in which `1` is not `0`, building an `n x n` matrix from the dense identity
succeeds and gives `getNNZ() = n`, and `multiply(x)` returns `x` itself for every vector `x`
of length `n`. -/
theorem C12_identity_multiply [CommRing α] [Nontrivial α] [DecidableEq α] (n : Nat)
    (x : List α) (hx : x.length = n) :
    (buildFromDense (SparseMatrixCSR.new n n) (denseIdentity n : List (List α))).1 =
      Except.ok () ∧
    getNNZ (buildFromDense (SparseMatrixCSR.new n n) (denseIdentity n : List (List α))).2 = n ∧
    multiply (buildFromDense (SparseMatrixCSR.new n n) (denseIdentity n : List (List α))).2 x =
      Except.ok x := by
  rw [build_new n n _ (isDense_denseIdentity n)]
  refine ⟨rfl, ?_, ?_⟩
  · simp only [getNNZ, ofRows]
    rw [length_flatten_denseRows]
    have : ∀ r ∈ Finset.range n, (∑ c in Finset.range n,
        if entry (denseIdentity n : List (List α)) r c ≠ 0 then 1 else 0) = 1 := by
      intro r hr
      rw [Finset.sum_eq_single r]
      · have h1 : (if r = r then (1 : α) else 0) = 1 := if_pos rfl
        rw [entry_denseIdentity n r r (Finset.mem_range.mp hr) (Finset.mem_range.mp hr),
          h1, if_pos one_ne_zero]
      · intro c hc hcr
        have h0 : (if r = c then (1 : α) else 0) = 0 := if_neg (fun h => hcr h.symm)
        rw [entry_denseIdentity n r c (Finset.mem_range.mp hr) (Finset.mem_range.mp hc), h0]
        simp
      · intro h
        exact absurd hr h
    rw [Finset.sum_congr rfl this]
    simp
  · have h := multiply_ofRows n (denseRows n n (denseIdentity n)) x hx
      (colsBelow_denseRows n n _)
    rw [map_rowSum_denseRows] at h
    rw [h]
    congr 1
    conv => rhs; rw [eq_map_range_getD x 0 n hx]
    apply List.map_congr_left
    intro r hr
    exact rowDot_denseIdentity n x r (List.mem_range.mp hr)

/-- Witness for C12: the `3 x 3` identity of `testIdentityMatrix` with `[7, 8, 9]`. -/
theorem C12_identity_multiply_witness :
    getNNZ (buildFromDense (SparseMatrixCSR.new 3 3) (denseIdentity 3 : List (List Int))).2 = 3 ∧
    multiply (buildFromDense (SparseMatrixCSR.new 3 3) (denseIdentity 3 : List (List Int))).2
      [7, 8, 9] = Except.ok [7, 8, 9] :=
  (C12_identity_multiply 3 [7, 8, 9] (by decide)).2

/-- C13. The identity matrix is its own transpose: for every `n`, the matrix `I` built from
the `n x n` dense identity is built without error, `I.transpose()` returns `I` itself (the
same `rows`, `cols`, `nnz`, `row_offsets`, `column_indices` and values), and therefore
`I.transpose().multiply(x)` is `I.multiply(x)` for every vector `x`. -/
theorem C13_identity_transpose [CommRing α] [DecidableEq α] (n : Nat) :
    (buildFromDense (SparseMatrixCSR.new n n) (denseIdentity n : List (List α))).1 =
      Except.ok () ∧
    transpose (buildFromDense (SparseMatrixCSR.new n n) (denseIdentity n : List (List α))).2 =
      Except.ok (buildFromDense (SparseMatrixCSR.new n n) (denseIdentity n : List (List α))).2 ∧
    ∀ x : List α, ∃ t,
      transpose (buildFromDense (SparseMatrixCSR.new n n) (denseIdentity n : List (List α))).2 =
        Except.ok t ∧
      multiply t x =
        multiply (buildFromDense (SparseMatrixCSR.new n n) (denseIdentity n : List (List α))).2
          x := by
  have ht : transpose (buildFromDense (SparseMatrixCSR.new n n)
        (denseIdentity n : List (List α))).2 =
      Except.ok (buildFromDense (SparseMatrixCSR.new n n)
        (denseIdentity n : List (List α))).2 := by
    rw [build_new n n _ (isDense_denseIdentity n)]
    simp only []
    rw [transpose_ofRows n _ (colsBelow_denseRows n n _), length_denseRows,
      transposeRows_denseRows]
    congr 2
    apply denseRows_congr
    intro r c hr hc
    rw [entry_denseTranspose n n _ r c hr hc, entry_denseIdentity n c r hc hr,
      entry_denseIdentity n r c hr hc]
    by_cases h : r = c
    · rw [if_pos h, if_pos h.symm]
    · rw [if_neg h, if_neg (fun h2 => h h2.symm)]
  refine ⟨?_, ht, fun x => ⟨_, ht, rfl⟩⟩
  rw [build_new n n _ (isDense_denseIdentity n)]

/-- C14. CSR invariants after build: for every `rows x cols` dense matrix `D`,
`buildFromDense(D)` succeeds and leaves a `rows x cols` state with all five invariants:
`row_offsets` has length `rows + 1`, starts at `0` and is non-decreasing (1);
`row_offsets[rows] = nnz` is the length of `column_indices` and of the values (2); every
column index is below `cols` (3); column indices are strictly increasing within each row
segment (4); no stored value is zero (5). -/
theorem C14_build_invariants [Zero α] [DecidableEq α] (rows cols : Nat) (D : List (List α))
    (hD : IsDense rows cols D) :
    (buildFromDense (SparseMatrixCSR.new rows cols) D).1 = Except.ok () ∧
    (buildFromDense (SparseMatrixCSR.new rows cols) D).2.rows = rows ∧
    (buildFromDense (SparseMatrixCSR.new rows cols) D).2.cols = cols ∧
    Inv1 (buildFromDense (SparseMatrixCSR.new rows cols) D).2 ∧
    Inv2 (buildFromDense (SparseMatrixCSR.new rows cols) D).2 ∧
    Inv3 (buildFromDense (SparseMatrixCSR.new rows cols) D).2 ∧
    Inv4 (buildFromDense (SparseMatrixCSR.new rows cols) D).2 ∧
    Inv5 (buildFromDense (SparseMatrixCSR.new rows cols) D).2 := by
  rw [build_new rows cols D hD]
  exact ⟨rfl, length_denseRows _ _ _, rfl, inv1_ofRows _ _, inv2_ofRows _ _,
    inv3_ofRows _ _ (colsBelow_denseRows _ _ _), inv4_ofRows _ _ (sorted_denseRows _ _ _),
    inv5_ofRows _ _ (nonzero_denseRows _ _ _)⟩

/-- Witness for C14: the matrix of `testBasicMultiplication`. -/
theorem C14_build_invariants_witness :
    Inv1 (buildFromDense (SparseMatrixCSR.new 3 3)
      ([[1, 0, 2], [0, 3, 0], [4, 0, 5]] : List (List Int))).2 ∧
    Inv2 (buildFromDense (SparseMatrixCSR.new 3 3)
      ([[1, 0, 2], [0, 3, 0], [4, 0, 5]] : List (List Int))).2 ∧
    Inv3 (buildFromDense (SparseMatrixCSR.new 3 3)
      ([[1, 0, 2], [0, 3, 0], [4, 0, 5]] : List (List Int))).2 ∧
    Inv4 (buildFromDense (SparseMatrixCSR.new 3 3)
      ([[1, 0, 2], [0, 3, 0], [4, 0, 5]] : List (List Int))).2 ∧
    Inv5 (buildFromDense (SparseMatrixCSR.new 3 3)
      ([[1, 0, 2], [0, 3, 0], [4, 0, 5]] : List (List Int))).2 :=
  (C14_build_invariants 3 3 [[1, 0, 2], [0, 3, 0], [4, 0, 5]] (by decide)).2.2.2

/-- C15. Transpose preserves the CSR invariants: for every receiver `A` with invariants 1 to
5, `A.transpose()` returns a matrix `t` of dimensions `cols x rows` with the same
invariants: `row_offsets` of length `cols + 1`, starting at `0`, non-decreasing, ending at
`nnz`, the length of both entry arrays; every new column index below `rows`; new column
indices strictly increasing within each new row segment; no stored value zero. -/
theorem C15_transpose_invariants [Zero α] (A : SparseMatrixCSR α) (h1 : Inv1 A) (h2 : Inv2 A)
    (h3 : Inv3 A) (h4 : Inv4 A) (h5 : Inv5 A) :
    ∃ t, transpose A = Except.ok t ∧ t.rows = A.cols ∧ t.cols = A.rows ∧
      Inv1 t ∧ Inv2 t ∧ Inv3 t ∧ Inv4 t ∧ Inv5 t := by
  have hlen : (toRows A).length = A.rows := by simp [toRows]
  refine ⟨_, transpose_eq A h1 h2 h3, by simp [ofRows, transposeRows], rfl,
    inv1_ofRows _ _, inv2_ofRows _ _, inv3_ofRows _ _ ?_,
    inv4_ofRows _ _ (sorted_transposeRows _ _ (sorted_toRows A h2 h4)),
    inv5_ofRows _ _ (nonzero_transposeRows _ _ (nonzero_toRows A h5))⟩
  have := colsBelow_transposeRows A.cols (toRows A)
  rw [hlen] at this
  exact this

/-- Witness for C15: the state built from the `2 x 3` matrix of
`testTransposeRectangular`. -/
theorem C15_transpose_invariants_witness :
    ∃ t, transpose (⟨2, 3, 4, [0, 2, 4], [0, 2, 0, 1], [1, 2, 3, 4]⟩ : SparseMatrixCSR Int) =
        Except.ok t ∧
      t.rows = 3 ∧ t.cols = 2 ∧ Inv1 t ∧ Inv2 t ∧ Inv3 t ∧ Inv4 t ∧ Inv5 t :=
  C15_transpose_invariants ⟨2, 3, 4, [0, 2, 4], [0, 2, 0, 1], [1, 2, 3, 4]⟩ (by decide)
    (by decide) (by decide) (by decide) (by decide)

/-- C16. Transpose never fails: for every receiver `A` with invariants 1 to 3, `transpose`
returns a matrix `t` (every subscript it uses is in range); each `new_position` that its
scatter loop computes satisfies
`new_row_offsets[new_row] <= new_position < new_row_offsets[new_row + 1] <= nnz`, and the
positions written, in order, are a permutation of `0, .., nnz - 1`: each position in
`[0, nnz)` is written exactly once. -/
theorem C16_transpose_never_fails [Zero α] (A : SparseMatrixCSR α) (h1 : Inv1 A)
    (h2 : Inv2 A) (h3 : Inv3 A) :
    ∃ t log, transposeTraced A = Except.ok (t, log) ∧ transpose A = Except.ok t ∧
      (∀ pl ∈ log, ∃ lo hi, t.row_offsets[pl.new_row]? = some lo ∧
        t.row_offsets[pl.new_row + 1]? = some hi ∧
        (lo : Int) ≤ pl.new_position ∧ pl.new_position < (hi : Int) ∧ hi ≤ A.nnz) ∧
      List.Perm (log.map (fun pl => pl.new_position)) ((List.range A.nnz).map Int.ofNat) := by
  have hC := colsBelow_toRows A h3
  have hn := (nnz_eq_of_inv A h1 h2).1
  refine ⟨_, _, transposeTraced_eq A h1 h2 h3, transpose_eq A h1 h2 h3, ?_, ?_⟩
  · intro pl hpl
    rw [hn]
    exact placement_bounds A.cols (toRows A) hC pl hpl
  · rw [hn]
    exact positions_perm A.cols (toRows A) hC

/-- Witness for C16: the state built from the `2 x 3` matrix of
`testTransposeRectangular`. -/
theorem C16_transpose_never_fails_witness :
    ∃ t log,
      transposeTraced (⟨2, 3, 4, [0, 2, 4], [0, 2, 0, 1], [1, 2, 3, 4]⟩ : SparseMatrixCSR Int) =
        Except.ok (t, log) ∧
      transpose (⟨2, 3, 4, [0, 2, 4], [0, 2, 0, 1], [1, 2, 3, 4]⟩ : SparseMatrixCSR Int) =
        Except.ok t ∧
      (∀ pl ∈ log, ∃ lo hi, t.row_offsets[pl.new_row]? = some lo ∧
        t.row_offsets[pl.new_row + 1]? = some hi ∧
        (lo : Int) ≤ pl.new_position ∧ pl.new_position < (hi : Int) ∧
        hi ≤ (⟨2, 3, 4, [0, 2, 4], [0, 2, 0, 1], [1, 2, 3, 4]⟩ : SparseMatrixCSR Int).nnz) ∧
      List.Perm (log.map (fun pl => pl.new_position))
        ((List.range
          (⟨2, 3, 4, [0, 2, 4], [0, 2, 0, 1], [1, 2, 3, 4]⟩ : SparseMatrixCSR Int).nnz).map
          Int.ofNat) :=
  C16_transpose_never_fails ⟨2, 3, 4, [0, 2, 4], [0, 2, 0, 1], [1, 2, 3, 4]⟩ (by decide)
    (by decide) (by decide)

/-- C17. Build layout: for every `rows x cols` dense matrix `D` and every row `r` in
`[0, rows)`, after `buildFromDense(D)` the offset `row_offsets[r]` is the number of non-zero
entries in rows `0..r-1` of `D`, and the segment `[row_offsets[r], row_offsets[r+1])` of the
paired arrays `(column_indices, values)` is the list of the pairs `(c, D[r][c])` for `c`
ascending over the columns with `D[r][c]` not zero. -/
theorem C17_build_layout [Zero α] [DecidableEq α] (rows cols : Nat) (D : List (List α))
    (hD : IsDense rows cols D) (r : Nat) (hr : r < rows) :
    (buildFromDense (SparseMatrixCSR.new rows cols) D).1 = Except.ok () ∧
    (buildFromDense (SparseMatrixCSR.new rows cols) D).2.row_offsets[r]? =
      some ((Finset.range r ×ˢ Finset.range cols).filter
        (fun rc => entry D rc.1 rc.2 ≠ 0)).card ∧
    sliceOf
        ((buildFromDense (SparseMatrixCSR.new rows cols) D).2.column_indices.zip
          (buildFromDense (SparseMatrixCSR.new rows cols) D).2.nnz_values)
        ((buildFromDense (SparseMatrixCSR.new rows cols) D).2.row_offsets.getD r 0)
        ((buildFromDense (SparseMatrixCSR.new rows cols) D).2.row_offsets.getD (r + 1) 0) =
      ((List.range cols).filter (fun c => decide (entry D r c ≠ 0))).map
        (fun c => (c, entry D r c)) := by
  rw [build_new rows cols D hD]
  have hr2 : r < (denseRows rows cols D).length := by rw [length_denseRows]; exact hr
  refine ⟨rfl, ?_, ?_⟩
  · simp only [ofRows]
    rw [getElem?_offsetsFrom _ 0 r (Nat.le_of_lt hr2), Nat.zero_add,
      take_denseRows rows cols D r (Nat.le_of_lt hr), length_flatten_denseRows,
      Finset.card_filter, Finset.sum_product]
  · simp only [ofRows]
    rw [zip_map_fst_snd, sliceOf_flatten _ r hr2]
    simp [denseRows, sparseRow]

/-- Witness for C17: row `1` of the `2 x 3` matrix of `testTransposeRectangular`. -/
theorem C17_build_layout_witness :
    (buildFromDense (SparseMatrixCSR.new 2 3)
        ([[1, 0, 2], [3, 4, 0]] : List (List Int))).2.row_offsets[1]? =
      some ((Finset.range 1 ×ˢ Finset.range 3).filter
        (fun rc => entry ([[1, 0, 2], [3, 4, 0]] : List (List Int)) rc.1 rc.2 ≠ 0)).card ∧
    sliceOf
        ((buildFromDense (SparseMatrixCSR.new 2 3)
            ([[1, 0, 2], [3, 4, 0]] : List (List Int))).2.column_indices.zip
          (buildFromDense (SparseMatrixCSR.new 2 3)
            ([[1, 0, 2], [3, 4, 0]] : List (List Int))).2.nnz_values)
        ((buildFromDense (SparseMatrixCSR.new 2 3)
          ([[1, 0, 2], [3, 4, 0]] : List (List Int))).2.row_offsets.getD 1 0)
        ((buildFromDense (SparseMatrixCSR.new 2 3)
          ([[1, 0, 2], [3, 4, 0]] : List (List Int))).2.row_offsets.getD (1 + 1) 0) =
      ((List.range 3).filter
        (fun c => decide (entry ([[1, 0, 2], [3, 4, 0]] : List (List Int)) 1 c ≠ 0))).map
        (fun c => (c, entry ([[1, 0, 2], [3, 4, 0]] : List (List Int)) 1 c)) :=
  (C17_build_layout 2 3 [[1, 0, 2], [3, 4, 0]] (by decide) 1 (by decide)).2

/-- C18, as stated, fails: on the `1 x 1` matrix of `testSingleElementMatrix` the single
placement has `new_row = 0`, counter `1` and `new_position = 0`, while
`new_row_offsets[0] + cursor[0]` is `0 + 1`. -/
theorem C18_scatter_position_counterexample :
    transposeTraced (⟨1, 1, 1, [0, 1], [0], [8]⟩ : SparseMatrixCSR Int) =
        Except.ok (⟨1, 1, 1, [0, 1], [0], [8]⟩, [⟨0, 1, 0⟩]) ∧
      ¬ (∀ t log, transposeTraced (⟨1, 1, 1, [0, 1], [0], [8]⟩ : SparseMatrixCSR Int) =
          Except.ok (t, log) →
        ∀ pl ∈ log, ∀ off : Nat, t.row_offsets[pl.new_row]? = some off →
          pl.new_position = (off : Int) + pl.counter) := by
  have h : transposeTraced (⟨1, 1, 1, [0, 1], [0], [8]⟩ : SparseMatrixCSR Int) =
      Except.ok (⟨1, 1, 1, [0, 1], [0], [8]⟩, [⟨0, 1, 0⟩]) := rfl
  refine ⟨h, fun hall => ?_⟩
  have := hall _ _ h ⟨0, 1, 0⟩ (List.mem_singleton_self _) 0 rfl
  simp at this

/-- C18, amended. Transpose scatter position: for every receiver `A` with invariants 1 to 3,
the scatter loop of `transpose` makes one placement for each stored entry, in order, into
the new row that is the entry's column; the cursor `col_counters[c]` read at a placement is
the number of stored entries in column `c` minus the number of earlier placements into new
row `c` (it starts at the count and is decremented by one after each placement), and the
entry is written at index `new_row_offsets[c] + (count[c] - cursor[c])`. -/
theorem C18_scatter_position [Zero α] (A : SparseMatrixCSR α) (h1 : Inv1 A) (h2 : Inv2 A)
    (h3 : Inv3 A) :
    ∃ t log, transposeTraced A = Except.ok (t, log) ∧ transpose A = Except.ok t ∧
      log.map (fun pl => pl.new_row) = A.column_indices ∧
      ∀ L1 pl L2, log = L1 ++ pl :: L2 →
        pl.counter = (A.column_indices.count pl.new_row : Int) -
          ((L1.filter (fun q => decide (q.new_row = pl.new_row))).length : Int) ∧
        ∃ off : Nat, t.row_offsets[pl.new_row]? = some off ∧
          pl.new_position =
            (off : Int) + ((A.column_indices.count pl.new_row : Int) - pl.counter) := by
  have hC := colsBelow_toRows A h3
  obtain ⟨_, hci⟩ := nnz_eq_of_inv A h1 h2
  refine ⟨_, _, transposeTraced_eq A h1 h2 h3, transpose_eq A h1 h2 h3, ?_, ?_⟩
  · rw [map_new_row_placementsOf, hci, ← map_snd_taggedFrom (toRows A) 0, List.map_map]
    rfl
  · intro L1 pl L2 hL
    obtain ⟨Q1, e, Q2, hQ, hL1, hpe⟩ := placementsOf_split A.cols (toRows A) [] _ L1 L2 pl hL
    rw [List.nil_append] at hpe
    have he : e ∈ taggedFrom 0 (toRows A) := by rw [hQ]; simp
    have hcol : e.2.1 < A.cols := by
      have := filter_cols_below (toRows A) A.cols 0 hC
      rw [List.filter_eq_self] at this
      simpa using this e he
    have hk : (L1.filter (fun q => decide (q.new_row = e.2.1))).length =
        (inColumn e.2.1 Q1).length := by
      rw [hL1]
      exact length_filter_new_row A.cols (toRows A) [] Q1 e.2.1
    have hcnt : A.column_indices.count e.2.1 = colCount (toRows A) e.2.1 := by
      rw [hci]
      exact count_column_indices (toRows A) e.2.1
    have hnr : pl.new_row = e.2.1 := by rw [hpe]; rfl
    have hctr : pl.counter =
        (colCount (toRows A) e.2.1 : Int) - ((inColumn e.2.1 Q1).length : Int) := by
      rw [hpe]; rfl
    have hpos : pl.new_position =
        ((((transposeRows A.cols (toRows A)).take e.2.1).flatten.length +
          (inColumn e.2.1 Q1).length : Nat) : Int) := by
      rw [hpe]; rfl
    rw [hnr, hk, hcnt]
    refine ⟨hctr, _, (getElem?_offsets_transposeRows A.cols (toRows A) e.2.1 hcol).1, ?_⟩
    rw [hpos, hctr, Nat.cast_add]
    omega

/-- Witness for the amended C18: the state built from the `2 x 3` matrix of
`testTransposeRectangular`. -/
theorem C18_scatter_position_witness :
    ∃ t log,
      transposeTraced (⟨2, 3, 4, [0, 2, 4], [0, 2, 0, 1], [1, 2, 3, 4]⟩ : SparseMatrixCSR Int) =
        Except.ok (t, log) ∧
      transpose (⟨2, 3, 4, [0, 2, 4], [0, 2, 0, 1], [1, 2, 3, 4]⟩ : SparseMatrixCSR Int) =
        Except.ok t ∧
      log.map (fun pl => pl.new_row) = [0, 2, 0, 1] ∧
      ∀ L1 pl L2, log = L1 ++ pl :: L2 →
        pl.counter = (([0, 2, 0, 1] : List Nat).count pl.new_row : Int) -
          ((L1.filter (fun q => decide (q.new_row = pl.new_row))).length : Int) ∧
        ∃ off : Nat, t.row_offsets[pl.new_row]? = some off ∧
          pl.new_position =
            (off : Int) + ((([0, 2, 0, 1] : List Nat).count pl.new_row : Int) - pl.counter) :=
  C18_scatter_position ⟨2, 3, 4, [0, 2, 4], [0, 2, 0, 1], [1, 2, 3, 4]⟩ (by decide)
    (by decide) (by decide)

/-- C19. Failure atomicity of `buildFromDense`: for every receiver state and every dense
input whose row count differs from `rows` or one of whose rows has a length different from
`cols`, the call throws `std::invalid_argument` and the fields `rows`, `cols`, `nnz`,
`row_offsets`, `column_indices` and values after the call are those before it, so that
`multiply` and `transpose` afterwards return what they returned before. -/
theorem C19_build_failure_atomic [Zero α] [Add α] [Mul α] [DecidableEq α]
    (m : SparseMatrixCSR α) (dense : List (List α))
    (h : dense.length ≠ m.rows ∨ ∃ row ∈ dense, row.length ≠ m.cols) :
    (buildFromDense m dense).1 = Except.error Error.invalid_argument ∧
    (buildFromDense m dense).2 = m ∧
    (∀ v, multiply (buildFromDense m dense).2 v = multiply m v) ∧
    transpose (buildFromDense m dense).2 = transpose m := by
  have hD : ¬ IsDense m.rows m.cols dense := by
    rintro ⟨h1, h2⟩
    rcases h with h | ⟨row, hrow, h⟩
    · exact h h1
    · exact h (h2 row hrow)
  have hb : buildFromDense m dense = (Except.error Error.invalid_argument, m) := by
    unfold buildFromDense
    rw [checkDense_eq, if_neg hD]
  rw [hb]
  exact ⟨rfl, rfl, fun _ => rfl, rfl⟩

/-- Witness for C19: a `2 x 2` matrix that stores three entries is given a dense matrix with
three rows. -/
theorem C19_build_failure_atomic_witness :
    (buildFromDense (⟨2, 2, 3, [0, 2, 3], [0, 1, 0], [1, 2, 3]⟩ : SparseMatrixCSR Int)
        [[1, 2], [3, 4], [5, 6]]).2 =
      (⟨2, 2, 3, [0, 2, 3], [0, 1, 0], [1, 2, 3]⟩ : SparseMatrixCSR Int) :=
  (C19_build_failure_atomic ⟨2, 2, 3, [0, 2, 3], [0, 1, 0], [1, 2, 3]⟩
    [[1, 2], [3, 4], [5, 6]] (Or.inl (by decide))).2.1

/-- C20. Build is lossless: for all `rows x cols` dense matrices `D1` and `D2`, if
`buildFromDense(D1)` and `buildFromDense(D2)` on `rows x cols` matrices leave the same
`row_offsets`, `column_indices` and values, then `D1 = D2`. -/
theorem C20_build_injective [Zero α] [DecidableEq α] (rows cols : Nat)
    (D1 D2 : List (List α)) (h1 : IsDense rows cols D1) (h2 : IsDense rows cols D2)
    (ho : (buildFromDense (SparseMatrixCSR.new rows cols) D1).2.row_offsets =
      (buildFromDense (SparseMatrixCSR.new rows cols) D2).2.row_offsets)
    (hc : (buildFromDense (SparseMatrixCSR.new rows cols) D1).2.column_indices =
      (buildFromDense (SparseMatrixCSR.new rows cols) D2).2.column_indices)
    (hv : (buildFromDense (SparseMatrixCSR.new rows cols) D1).2.nnz_values =
      (buildFromDense (SparseMatrixCSR.new rows cols) D2).2.nnz_values) :
    D1 = D2 := by
  rw [build_new rows cols D1 h1, build_new rows cols D2 h2] at ho hc hv
  have hrows : (ofRows cols (denseRows rows cols D1)).rows =
      (ofRows cols (denseRows rows cols D2)).rows := by
    simp only [ofRows, length_denseRows]
  have h := toRows_congr _ _ hrows ho hc hv
  rw [toRows_ofRows, toRows_ofRows] at h
  exact eq_of_entry_eq rows cols D1 D2 h1 h2
    (fun r c hr hc2 => denseRows_inj rows cols D1 D2 h r c hr hc2)

/-- Witness for C20: the matrix of `testBasicTranspose` against itself. -/
theorem C20_build_injective_witness :
    ([[1, 2], [3, 0]] : List (List Int)) = [[1, 2], [3, 0]] :=
  C20_build_injective 2 2 [[1, 2], [3, 0]] [[1, 2], [3, 0]] (by decide) (by decide) rfl rfl
    rfl
